import Mathlib

/-!
A shallow embedding of the table-reconstruction core of
`process_data.py` (functions `parse_segment`, `normalize_fragment`,
`current_heading_title`, `extract_tables`, `assemble_rows`), together
with theorems settling the frozen claims about that code.

Modelling conventions:
* Python dictionaries become association lists with Python's insertion
  order semantics: assigning to an existing key keeps its position,
  assigning to a fresh key appends it at the end (`setA`), lookups take
  the first (unique) occurrence (`lookupA`).
* The regular expressions of the source are compiled by hand into the
  character-list scanners below; `\s` (and `str.strip`) is modelled by
  the explicit finite set of characters Python treats as whitespace in
  text strings, `\d` by ASCII digits and `[A-Za-z]` by ASCII letters.
* A missing dictionary key (`element["Path"]` raising `KeyError`)
  is modelled by `Except.error`; optional keys are `Option` fields.
* `assemble_rows` performs no write on the table dictionary (all
  default-dict accesses in its body go through `.get` or hit keys that
  are present), so its embedding threads the table state through and
  returns it as the second component.
-/

namespace PdfExtract

/-! ## Association lists with Python dict semantics -/

def lookupA {α β : Type} [DecidableEq α] : List (α × β) → α → Option β
  | [], _ => none
  | (k, v) :: rest, key => if k = key then some v else lookupA rest key

def setA {α β : Type} [DecidableEq α] : List (α × β) → α → β → List (α × β)
  | [], key, v => [(key, v)]
  | (k, w) :: rest, key, v =>
      if k = key then (k, v) :: rest else (k, w) :: setA rest key v

/-! ## Character classes (Python `\s`, `str.strip`, `\d`, `[A-Za-z]`) -/

/-- The characters Python's `\s` and `str.strip()` treat as whitespace
in text strings. -/
def pySpaceChars : List Char :=
  [' ', '\t', '\n', '\r', '\x0b', '\x0c',
   '\x1c', '\x1d', '\x1e', '\x1f', '\u0085', '\u00a0', '\u1680',
   '\u2000', '\u2001', '\u2002', '\u2003', '\u2004', '\u2005', '\u2006',
   '\u2007', '\u2008', '\u2009', '\u200a', '\u2028', '\u2029', '\u202f',
   '\u205f', '\u3000']

def isPySpace (c : Char) : Bool := pySpaceChars.contains c

def isAsciiLetter (c : Char) : Bool :=
  (decide ('A' ≤ c) && decide (c ≤ 'Z')) || (decide ('a' ≤ c) && decide (c ≤ 'z'))

def natFromDigits (ds : List Char) : Nat :=
  ds.foldl (fun a c => 10 * a + (c.toNat - 48)) 0

/-! ## `normalize_fragment` (source lines 31-34) -/

/-- `text.replace("\u00a0", " ")`, one character at a time. -/
def replNbsp (c : Char) : Char := if c = '\u00a0' then ' ' else c

/-- `re.sub(r"\s+", " ", ·)`: every maximal run of whitespace becomes a
single space.  A whitespace character followed by more whitespace is
dropped; the last character of a run is emitted as `' '`. -/
def collapseWs : List Char → List Char
  | [] => []
  | [c] => if isPySpace c then [' '] else [c]
  | c :: d :: cs =>
      if isPySpace c && isPySpace d then collapseWs (d :: cs)
      else (if isPySpace c then ' ' else c) :: collapseWs (d :: cs)

def dropLastWhile (p : Char → Bool) (l : List Char) : List Char :=
  (l.reverse.dropWhile p).reverse

/-- Python `str.strip()`. -/
def pyStrip (l : List Char) : List Char :=
  dropLastWhile isPySpace (l.dropWhile isPySpace)

def pyStripS (s : String) : String := String.mk (pyStrip s.toList)

/-- `normalize_fragment`: collapse whitespace while keeping the original
token order (source lines 31-34). -/
def normalize_fragment (s : String) : String :=
  String.mk (pyStrip (collapseWs (s.toList.map replNbsp)))

/-! ## `parse_segment` (source lines 21-28)

`re.match(r"(?P<name>[A-Za-z]+)(?:\[(?P<index>\d+)\])?$", segment)`:
a leading non-empty run of ASCII letters, an optional `[digits]`
group, then end of string (Python `$` also matches just before one
final newline).  On failure the segment itself is returned with
index 1. -/

def parse_segment (s : String) : String × Nat :=
  let cs := s.toList
  let name := cs.takeWhile isAsciiLetter
  let rest := cs.dropWhile isAsciiLetter
  if name = [] then (s, 1)
  else if rest = [] ∨ rest = ['\n'] then (String.mk name, 1)
  else
    match rest with
    | '[' :: r =>
        let ds := r.takeWhile Char.isDigit
        let r2 := r.drop ds.length
        if ds ≠ [] ∧ (r2 = [']'] ∨ r2 = [']', '\n']) then
          (String.mk name, natFromDigits ds)
        else (s, 1)
    | _ => (s, 1)

/-! ## Regex scanners used by `extract_tables` -/

/-- The optional greedy `(\[\d+\])?` group: the bracketed digits at the
front of `cs`, if they match exactly, else `[]`. -/
def bracketPart (cs : List Char) : List Char :=
  match cs with
  | '[' :: rest =>
      let ds := rest.takeWhile Char.isDigit
      (match ds, rest.drop ds.length with
       | _ :: _, ']' :: _ => '[' :: ds ++ [']']
       | _, _ => [])
  | _ => []

/-- `re.compile(r"/Table(\[\d+\])?").search(path)`: the leftmost
occurrence of `/Table`, extended by a bracketed index when one follows.
Returns `(path[:match.end()], path[match.end():])`. -/
def splitTableRoot : List Char → Option (List Char × List Char)
  | '/' :: 'T' :: 'a' :: 'b' :: 'l' :: 'e' :: rest =>
      let brk := bracketPart rest
      some ('/' :: 'T' :: 'a' :: 'b' :: 'l' :: 'e' :: brk, rest.drop brk.length)
  | c :: cs => (splitTableRoot cs).map (fun p => (c :: p.1, p.2))
  | [] => none

/-- `re.compile(r"(.*?/H([1-6])(?:\[\d+\])?)").search(path)`: the lazy
`.*?` (which cannot cross a newline) makes the match end at the first
occurrence of `/H<level>`; group 1 starts just after the last newline
before that occurrence.  `acc` holds (reversed) the characters seen
since that newline.  Returns `(group 1, level)`. -/
def findHeadingGo : List Char → List Char → Option (List Char × Nat)
  | _, [] => none
  | acc, c :: cs =>
      let tryHere : Option (List Char × Nat) :=
        match c, cs with
        | '/', 'H' :: d :: rest =>
            if decide ('1' ≤ d) && decide (d ≤ '6') then
              some (acc.reverse ++ '/' :: 'H' :: d :: bracketPart rest, d.toNat - 48)
            else none
        | _, _ => none
      match tryHere with
      | some res => some res
      | none => findHeadingGo (if c = '\n' then [] else c :: acc) cs

/-- Python `"remainder".split("/")`. -/
def splitSlash : List Char → List (List Char)
  | [] => [[]]
  | '/' :: cs => [] :: splitSlash cs
  | c :: cs =>
      match splitSlash cs with
      | s :: ss => (c :: s) :: ss
      | [] => [[c]]

/-! ## Data model -/

structure Element where
  path : Option String
  text : Option String
  page : Option Int
  attributes : Option (List (String × Int))
deriving DecidableEq

structure RowMeta where
  has_th : Bool
  has_td : Bool
deriving DecidableEq

structure Table where
  id : String
  title : Option String
  page : Option Int
  attributes : List (String × Int)
  cells : List (Nat × List (Nat × List String))
  row_meta : List (Nat × RowMeta)
  column_order : List (Nat × List ((String × Nat) × Nat))
deriving DecidableEq

structure ExtState where
  heading_fragments : List (String × List String)
  heading_by_level : List (Nat × String)
  tables : List (String × Table)
  table_order : List String
deriving DecidableEq

/-! ## Heading tracking (source lines 37-42 and 60-74) -/

def joinSpace : List String → String
  | [] => ""
  | [f] => f
  | f :: fs => f ++ " " ++ joinSpace fs

/-- `current_heading_title` (source lines 37-42): the value at the
deepest (maximum) level. -/
def current_heading_title (hbl : List (Nat × String)) : Option String :=
  if hbl.isEmpty then none
  else lookupA hbl (hbl.foldl (fun a p => max a p.1) 0)

/-- Source lines 60-74: feed one text-bearing element to the heading
tracker. -/
def headingUpdate (hf : List (String × List String)) (hbl : List (Nat × String))
    (path text : String) : List (String × List String) × List (Nat × String) :=
  if text = "" then (hf, hbl)
  else
    match findHeadingGo [] path.toList with
    | none => (hf, hbl)
    | some hl =>
        let hpath := String.mk hl.1
        let lvl := hl.2
        let frag := normalize_fragment text
        if frag = "" then (hf, hbl)
        else
          let fragments := (lookupA hf hpath).getD []
          let fragments2 :=
            if fragments = [] ∨ fragments.getLast? ≠ some frag then
              fragments ++ [frag]
            else fragments
          let hf2 := setA hf hpath fragments2
          let hbl2 := (setA hbl lvl (joinSpace fragments2)).filter
            (fun p => decide (p.1 ≤ lvl))
          (hf2, hbl2)

/-! ## `extract_tables` (source lines 45-143) -/

def newTable (root : String) (title : Option String) (page : Option Int) : Table :=
  { id := root, title := title, page := page, attributes := [],
    cells := [], row_meta := [], column_order := [] }

/-- The column position resolved for cell key `(ct, ci)` in row `r`
(source lines 130-134): the previously assigned position when the key
was seen before in this row, the next sequential position otherwise. -/
def recordPos (t : Table) (r : Nat) (ct : String) (ci : Nat) : Nat :=
  let co := (lookupA t.column_order r).getD []
  match lookupA co (ct, ci) with
  | some p => p
  | none => co.length + 1

/-- Source lines 130-141: record one normalized fragment in the cell
determined by `(ct, ci)` within row `r`, assigning the next sequential
column position when the key is new, and update the row metadata. -/
def recordCell (t : Table) (r : Nat) (ct : String) (ci : Nat) (frag : String) : Table :=
  let co := (lookupA t.column_order r).getD []
  let pos := recordPos t r ct ci
  let co2 :=
    match lookupA co (ct, ci) with
    | some _ => co
    | none => co ++ [((ct, ci), co.length + 1)]
  let row := (lookupA t.cells r).getD []
  let cell := (lookupA row pos).getD []
  let rm := (lookupA t.row_meta r).getD { has_th := false, has_td := false }
  let rm2 := if ct = "TH" then { rm with has_th := true } else { rm with has_td := true }
  { t with column_order := setA t.column_order r co2,
           cells := setA t.cells r (setA row pos (cell ++ [frag])),
           row_meta := setA t.row_meta r rm2 }

/-- Source lines 116-122: the segment walk keeping the last `TR` index
and the last `TD`/`TH` index and type. -/
def cellWalk (segs : List String) : Option Nat × Option Nat × Option String :=
  segs.foldl
    (fun acc seg =>
      let p := parse_segment seg
      if p.1 = "TR" then (some p.2, acc.2.1, acc.2.2)
      else if p.1 = "TD" ∨ p.1 = "TH" then (acc.1, some p.2, some p.1)
      else acc)
    (none, none, none)

/-- Source lines 93-141, the per-element work on the matched table:
page refresh, root-element metadata capture, or cell recording. -/
def tableStep (st1 : ExtState) (e : Element) (path root : String) (rem : List Char)
    (tables0 : List (String × Table)) (order0 : List String) : ExtState :=
  let tbl0 := (lookupA tables0 root).getD (newTable root none none)
  let tbl1 :=
    if tbl0.page = none ∧ e.page ≠ none then { tbl0 with page := e.page } else tbl0
  if path = root then
    let tbl2 :=
      match e.attributes with
      | some attrs => if attrs ≠ [] then { tbl1 with attributes := attrs } else tbl1
      | none => tbl1
    let tbl3 :=
      if tbl2.title = none then
        { tbl2 with title := current_heading_title st1.heading_by_level }
      else tbl2
    { st1 with tables := setA tables0 root tbl3, table_order := order0 }
  else
    match e.text with
    | none => { st1 with tables := setA tables0 root tbl1, table_order := order0 }
    | some txt =>
        let segs := ((splitSlash rem).filter (fun l => !l.isEmpty)).map String.mk
        let w := cellWalk segs
        match w.1, w.2.1, w.2.2 with
        | some r, some ci, some ct =>
            let frag := normalize_fragment txt
            if frag = "" then
              { st1 with tables := setA tables0 root tbl1, table_order := order0 }
            else
              { st1 with tables := setA tables0 root (recordCell tbl1 r ct ci frag),
                         table_order := order0 }
        | _, _, _ =>
            { st1 with tables := setA tables0 root tbl1, table_order := order0 }

/-- One iteration of the loop of `extract_tables` (source lines 56-141)
for an element whose `Path` is present. -/
def processElementOk (st : ExtState) (e : Element) (path : String) : ExtState :=
  let text := e.text.getD ""
  let hs := headingUpdate st.heading_fragments st.heading_by_level path text
  let st1 : ExtState :=
    { st with heading_fragments := hs.1, heading_by_level := hs.2 }
  match splitTableRoot path.toList with
  | none => st1
  | some pr =>
      let root := String.mk pr.1
      let isNew := (lookupA st1.tables root).isNone
      let tables0 :=
        if isNew then
          st1.tables ++
            [(root, newTable root (current_heading_title st1.heading_by_level) e.page)]
        else st1.tables
      let order0 := if isNew then st1.table_order ++ [root] else st1.table_order
      tableStep st1 e path root pr.2 tables0 order0

/-- `element["Path"]` raises `KeyError` when the key is missing
(source line 57). -/
def processElement (st : ExtState) (e : Element) : Except String ExtState :=
  match e.path with
  | none => .error "KeyError: Path"
  | some p => .ok (processElementOk st e p)

def extractLoop : ExtState → List Element → Except String ExtState
  | st, [] => .ok st
  | st, e :: es =>
      match processElement st e with
      | .error m => .error m
      | .ok st2 => extractLoop st2 es

def initState : ExtState :=
  { heading_fragments := [], heading_by_level := [], tables := [], table_order := [] }

/-- `return [tables[key] for key in table_order]` (source line 143). -/
def finalizeTables (st : ExtState) : List Table :=
  st.table_order.filterMap (lookupA st.tables)

/-- `extract_tables` (source lines 45-143). -/
def extract_tables (elements : List Element) : Except String (List Table) :=
  (extractLoop initState elements).map finalizeTables

/-! ## `assemble_rows` (source lines 146-193) -/

/-- `declared_cols = attributes.get("NumCol", 0)` (source line 150). -/
def declared_cols (t : Table) : Int := (lookupA t.attributes "NumCol").getD 0

/-- Source lines 152-155: the running maximum of `max(cols.keys())`
over the non-empty per-row cell dicts. -/
def observed_cols (t : Table) : Nat :=
  t.cells.foldl
    (fun acc rc =>
      if rc.2.isEmpty then acc
      else max acc (rc.2.foldl (fun a pc => max a pc.1) 0))
    0

/-- `num_cols = max(declared_cols, observed_cols)` (source line 157). -/
def num_cols_val (t : Table) : Int := max (declared_cols t) (observed_cols t : Int)

/-- `sorted(cells.keys())` (source line 165). -/
def sorted_row_keys (t : Table) : List Nat :=
  List.insertionSort (· ≤ ·) (t.cells.map Prod.fst)

/-- Source lines 169-170: one cell's value, the fragment list at
column position `c` of row `r` joined with spaces and stripped. -/
def cellValue (t : Table) (r c : Nat) : String :=
  pyStripS (joinSpace ((lookupA ((lookupA t.cells r).getD []) c).getD []))

/-- Source lines 166-171: the row vector of width `w` for row `r`. -/
def row_values_of (t : Table) (w : Nat) (r : Nat) : List String :=
  (List.range' 1 w).map (cellValue t r)

/-- Source line 175: `meta.get("has_th") and not meta.get("has_td")`. -/
def is_header_row (t : Table) (r : Nat) : Bool :=
  let m := (lookupA t.row_meta r).getD { has_th := false, has_td := false }
  m.has_th && !m.has_td

/-- One iteration of the row loop (source lines 165-180), on the state
`(ordered_rows, header_rows, header_phase)`. -/
def rowStep (t : Table) (w : Nat) (acc : List (List String) × Nat × Bool) (r : Nat) :
    List (List String) × Nat × Bool :=
  let rv := row_values_of t w r
  if acc.2.2 then
    if is_header_row t r then (acc.1 ++ [rv], acc.2.1 + 1, true)
    else (acc.1 ++ [rv], acc.2.1, false)
  else (acc.1 ++ [rv], acc.2.1, false)

/-- Source lines 183-186: the last column index (0-based) that is
non-empty in at least one row, as a fold over `range(num_cols)`. -/
def lastNonEmpty (ordered : List (List String)) (w : Nat) : Option Nat :=
  (List.range w).foldl
    (fun acc j => if ordered.any (fun row => row.getD j "" != "") then some j else acc)
    none

/-- `assemble_rows` (source lines 146-193).  The second component is
the table dictionary as it stands when the function returns: the body
performs no write on it, so it is threaded through unchanged. -/
def assemble_rows (table : Table) : (List (List String) × Nat) × Table :=
  let nc := num_cols_val table
  if nc = 0 then (([], 0), table)
  else
    let w := nc.toNat
    let tr := (sorted_row_keys table).foldl (rowStep table w) ([], 0, true)
    let ordered := tr.1
    let header_rows := tr.2.1
    match lastNonEmpty ordered w with
    | some j => ((ordered.map (fun row => row.take (j + 1)), header_rows), table)
    | none => ((ordered.map (fun _ => ([] : List String)), header_rows), table)

/-- Adjacent characters are not both whitespace. -/
def WsR (a b : Char) : Prop := ¬(isPySpace a = true ∧ isPySpace b = true)

/-! ## Observers used to state the claims -/

/-- The column position assigned to cell key `k` in row `r` of `t`,
if any. -/
def colPosOf (t : Table) (r : Nat) (k : String × Nat) : Option Nat :=
  lookupA ((lookupA t.column_order r).getD []) k

/-- The fragment list stored at column position `p` of row `r` of `t`. -/
def cellFragsOf (t : Table) (r p : Nat) : List String :=
  (lookupA ((lookupA t.cells r).getD []) p).getD []

/-! ## Concrete element streams used by the claims -/

/-- The five-element stream of the end-to-end claim. -/
def c1Elems : List Element :=
  [⟨some "//Table", none, none, some [("NumCol", 2)]⟩,
   ⟨some "//Table/TR[1]/TH[1]", some "Name", none, none⟩,
   ⟨some "//Table/TR[1]/TH[2]", some "Age", none, none⟩,
   ⟨some "//Table/TR[2]/TD[1]", some "Alice", none, none⟩,
   ⟨some "//Table/TR[2]/TD[2]", some "30", none, none⟩]

/-- Two text-bearing elements carrying the same raw cell segment
`TD[1]` in the same row of the same table. -/
def c2Elems : List Element :=
  [⟨some "//Table/TR[1]/TD[1]", some "X", none, none⟩,
   ⟨some "//Table/TR[1]/TD[1]", some "Y", none, none⟩]

/-- A single text-bearing element whose path has no complete segment
named `Table`, but contains the substring `/Table` (inside
`TableOfContents`). -/
def c10Elems : List Element :=
  [⟨some "//Document/TableOfContents/P[1]", some "Intro", none, none⟩]

/-! ## Invariants of the streaming assembly -/

/-- Structural invariant of every table built by `extract_tables`: in
each row the assigned column positions are exactly `1..k`, in
first-seen order, consistently in `column_order` and `cells`; every
stored fragment is a non-empty whitespace-stripped string; row keys
are not duplicated. -/
structure TInv (t : Table) : Prop where
  co_seq : ∀ rc ∈ t.column_order, rc.2.map Prod.snd = List.range' 1 rc.2.length
  cells_pos : ∀ rc ∈ t.cells, rc.2.map Prod.fst = List.range' 1 rc.2.length
  cells_ne : ∀ rc ∈ t.cells, rc.2 ≠ []
  frags_ok : ∀ rc ∈ t.cells, ∀ pc ∈ rc.2, pc.2 ≠ [] ∧
    ∀ f ∈ pc.2, f ≠ "" ∧ pyStrip f.toList = f.toList
  link : ∀ r : Nat, ((lookupA t.cells r).getD []).length =
    ((lookupA t.column_order r).getD []).length
  cells_nodup : (t.cells.map Prod.fst).Nodup

/-- Invariant of the whole assembly state. -/
def SInv (st : ExtState) : Prop := ∀ kt ∈ st.tables, TInv kt.2

/-- The fragments stored for table `root`, row `r`, position `p` in an
assembly state. -/
def stateCellFrags (st : ExtState) (root : String) (r p : Nat) : List String :=
  cellFragsOf ((lookupA st.tables root).getD (newTable root none none)) r p

/-- A stream whose first row repeats the raw segment `TD[1]` around a
`TH[1]` cell. -/
def c3Elems : List Element :=
  [⟨some "//Table/TR[1]/TD[1]", some "a", none, none⟩,
   ⟨some "//Table/TR[1]/TH[1]", some "b", none, none⟩,
   ⟨some "//Table/TR[1]/TD[1]", some "c", none, none⟩]

/-- The table `extract_tables` builds from `c3Elems`. -/
def c3Table : Table :=
  ⟨"//Table", none, none, [],
   [(1, [(1, ["a", "c"]), (2, ["b"])])],
   [(1, ⟨true, true⟩)],
   [(1, [(("TD", 1), 1), (("TH", 1), 2)])]⟩

/-- A stream with two leading header-only rows, a data row, then a
header-only row again. -/
def c4Elems : List Element :=
  [⟨some "//Table/TR[1]/TH[1]", some "h1", none, none⟩,
   ⟨some "//Table/TR[2]/TH[1]", some "h2", none, none⟩,
   ⟨some "//Table/TR[3]/TD[1]", some "d", none, none⟩,
   ⟨some "//Table/TR[4]/TH[1]", some "h3", none, none⟩]

/-- The table `extract_tables` builds from `c4Elems`. -/
def c4Table : Table :=
  ⟨"//Table", none, none, [],
   [(1, [(1, ["h1"])]), (2, [(1, ["h2"])]), (3, [(1, ["d"])]), (4, [(1, ["h3"])])],
   [(1, ⟨true, false⟩), (2, ⟨true, false⟩), (3, ⟨false, true⟩), (4, ⟨true, false⟩)],
   [(1, [(("TH", 1), 1)]), (2, [(("TH", 1), 1)]), (3, [(("TD", 1), 1)]),
    (4, [(("TH", 1), 1)])]⟩

/-- A stream with a one-cell first row and a two-cell second row. -/
def c6Elems : List Element :=
  [⟨some "//Table/TR[1]/TD[1]", some "x", none, none⟩,
   ⟨some "//Table/TR[2]/TD[1]", some "y", none, none⟩,
   ⟨some "//Table/TR[2]/TD[2]", some "z", none, none⟩]

/-- The table `extract_tables` builds from `c6Elems`. -/
def c6Table : Table :=
  ⟨"//Table", none, none, [],
   [(1, [(1, ["x"])]), (2, [(1, ["y"]), (2, ["z"])])],
   [(1, ⟨false, true⟩), (2, ⟨false, true⟩)],
   [(1, [(("TD", 1), 1)]), (2, [(("TD", 1), 1), (("TD", 2), 2)])]⟩

/-! ## Association list lemmas -/

theorem lookupA_setA_self {α β : Type} [DecidableEq α] (l : List (α × β)) (k : α) (v : β) :
    lookupA (setA l k v) k = some v := by
  induction l with
  | nil => simp [setA, lookupA]
  | cons p rest ih =>
      by_cases h : p.1 = k
      · simp [setA, lookupA, h]
      · simp [setA, lookupA, h, ih]

theorem lookupA_setA_ne {α β : Type} [DecidableEq α] (l : List (α × β)) (k k' : α) (v : β)
    (h : k' ≠ k) : lookupA (setA l k v) k' = lookupA l k' := by
  induction l with
  | nil => simp [setA, lookupA, Ne.symm h]
  | cons p rest ih =>
      by_cases hp : p.1 = k
      · subst hp
        simp [setA, lookupA, Ne.symm h]
      · simp only [setA, if_neg hp, lookupA]
        by_cases hp' : p.1 = k'
        · simp [hp']
        · simp [hp', ih]

theorem setA_eq_of_lookupA {α β : Type} [DecidableEq α] {l : List (α × β)} {k : α} {v : β}
    (h : lookupA l k = some v) : setA l k v = l := by
  induction l with
  | nil => simp [lookupA] at h
  | cons p rest ih =>
      by_cases hp : p.1 = k
      · simp only [lookupA, if_pos hp] at h
        cases h
        cases p
        simp_all [setA]
      · simp only [lookupA, if_neg hp] at h
        simp [setA, hp, ih h]

theorem lookupA_append_none {α β : Type} [DecidableEq α] {l : List (α × β)} {k : α}
    (h : lookupA l k = none) (l2 : List (α × β)) :
    lookupA (l ++ l2) k = lookupA l2 k := by
  induction l with
  | nil => simp
  | cons p rest ih =>
      by_cases hp : p.1 = k
      · simp [lookupA, hp] at h
      · simp only [lookupA, if_neg hp] at h
        simp [lookupA, hp, ih h]

theorem lookupA_append_some {α β : Type} [DecidableEq α] {l : List (α × β)} {k : α} {v : β}
    (h : lookupA l k = some v) (l2 : List (α × β)) :
    lookupA (l ++ l2) k = some v := by
  induction l with
  | nil => simp [lookupA] at h
  | cons p rest ih =>
      by_cases hp : p.1 = k
      · simp only [lookupA, if_pos hp] at h
        simp [lookupA, hp, h]
      · simp only [lookupA, if_neg hp] at h
        simp [lookupA, hp, ih h]

theorem mem_setA {α β : Type} [DecidableEq α] {l : List (α × β)} {k : α} {v : β} {x : α × β}
    (h : x ∈ setA l k v) : x ∈ l ∨ x = (k, v) := by
  induction l with
  | nil => simp [setA] at h; simp [h]
  | cons p rest ih =>
      by_cases hp : p.1 = k
      · simp only [setA, if_pos hp, List.mem_cons] at h
        rcases h with h | h
        · right; rw [h, ← hp]
        · left; exact List.mem_cons_of_mem _ h
      · simp only [setA, if_neg hp, List.mem_cons] at h
        rcases h with h | h
        · left; simp [h]
        · rcases ih h with h' | h'
          · left; exact List.mem_cons_of_mem _ h'
          · right; exact h'

theorem lookupA_mem {α β : Type} [DecidableEq α] {l : List (α × β)} {k : α} {v : β}
    (h : lookupA l k = some v) : (k, v) ∈ l := by
  induction l with
  | nil => simp [lookupA] at h
  | cons p rest ih =>
      by_cases hp : p.1 = k
      · simp only [lookupA, if_pos hp] at h
        cases h
        cases p
        simp_all
      · simp only [lookupA, if_neg hp] at h
        exact List.mem_cons_of_mem _ (ih h)

theorem lookupA_eq_none_iff {α β : Type} [DecidableEq α] {l : List (α × β)} {k : α} :
    lookupA l k = none ↔ k ∉ l.map Prod.fst := by
  induction l with
  | nil => simp [lookupA]
  | cons p rest ih =>
      by_cases hp : p.1 = k
      · simp [lookupA, hp]
      · simp [lookupA, hp, ih, Ne.symm hp]

theorem map_fst_setA_some {α β : Type} [DecidableEq α] {l : List (α × β)} {k : α} {v v' : β}
    (h : lookupA l k = some v') : (setA l k v).map Prod.fst = l.map Prod.fst := by
  induction l with
  | nil => simp [lookupA] at h
  | cons p rest ih =>
      by_cases hp : p.1 = k
      · simp [setA, hp]
      · simp only [lookupA, if_neg hp] at h
        simp [setA, hp, ih h]

theorem map_fst_setA_none {α β : Type} [DecidableEq α] {l : List (α × β)} {k : α} {v : β}
    (h : lookupA l k = none) : (setA l k v).map Prod.fst = l.map Prod.fst ++ [k] := by
  induction l with
  | nil => simp [setA]
  | cons p rest ih =>
      by_cases hp : p.1 = k
      · simp [lookupA, hp] at h
      · simp only [lookupA, if_neg hp] at h
        simp [setA, hp, ih h]

/-! ## Lemmas about `recordCell` -/

theorem recordCell_colPos (t : Table) (r : Nat) (ct : String) (ci : Nat) (frag : String) :
    colPosOf (recordCell t r ct ci frag) r (ct, ci) = some (recordPos t r ct ci) := by
  unfold colPosOf recordCell
  cases h : lookupA ((lookupA t.column_order r).getD []) (ct, ci) with
  | none =>
      simp only [h, lookupA_setA_self, Option.getD_some]
      rw [lookupA_append_none h]
      simp [lookupA, recordPos, h]
  | some p =>
      simp only [h, lookupA_setA_self, Option.getD_some]
      simp [recordPos, h]

theorem recordPos_of_colPos {t : Table} {r : Nat} {ct : String} {ci : Nat} {p : Nat}
    (h : colPosOf t r (ct, ci) = some p) : recordPos t r ct ci = p := by
  unfold colPosOf at h
  simp [recordPos, h]

theorem recordCell_colOrder_stable {t : Table} {r : Nat} {ct : String} {ci : Nat} {p : Nat}
    (frag : String) (h : colPosOf t r (ct, ci) = some p) :
    (recordCell t r ct ci frag).column_order = t.column_order := by
  unfold colPosOf at h
  cases hr : lookupA t.column_order r with
  | none => rw [hr] at h; simp [lookupA] at h
  | some co =>
      rw [hr] at h
      simp only [Option.getD_some] at h
      unfold recordCell
      simp only [hr, Option.getD_some, h]
      exact setA_eq_of_lookupA hr

theorem recordCell_cellFrags (t : Table) (r : Nat) (ct : String) (ci : Nat) (frag : String) :
    cellFragsOf (recordCell t r ct ci frag) r (recordPos t r ct ci) =
      cellFragsOf t r (recordPos t r ct ci) ++ [frag] := by
  unfold cellFragsOf recordCell
  simp [lookupA_setA_self]

/-- C2, corrected behaviour stated generally: recording the same cell
key `(ct, ci)` twice in the same row resolves both fragments to one
and the same column position `p`, leaves the column order unchanged
the second time, and appends the second fragment after the first. -/
theorem repeated_cell_key_same_position (t : Table) (r ci : Nat) (ct f1 f2 : String) :
    ∃ p : Nat,
      colPosOf (recordCell t r ct ci f1) r (ct, ci) = some p ∧
      colPosOf (recordCell (recordCell t r ct ci f1) r ct ci f2) r (ct, ci) = some p ∧
      (recordCell (recordCell t r ct ci f1) r ct ci f2).column_order =
        (recordCell t r ct ci f1).column_order ∧
      cellFragsOf (recordCell t r ct ci f1) r p = cellFragsOf t r p ++ [f1] ∧
      cellFragsOf (recordCell (recordCell t r ct ci f1) r ct ci f2) r p =
        cellFragsOf (recordCell t r ct ci f1) r p ++ [f2] := by
  refine ⟨recordPos t r ct ci, recordCell_colPos t r ct ci f1, ?_, ?_, ?_, ?_⟩
  · rw [recordCell_colPos, recordPos_of_colPos (recordCell_colPos t r ct ci f1)]
  · exact recordCell_colOrder_stable f2 (recordCell_colPos t r ct ci f1)
  · exact recordCell_cellFrags t r ct ci f1
  · rw [← recordPos_of_colPos (recordCell_colPos t r ct ci f1)]
    exact recordCell_cellFrags (recordCell t r ct ci f1) r ct ci f2

/-! ## Whitespace lemmas for `normalize_fragment` -/

theorem collapseWs_head_of_not_ws {d : Char} (cs : List Char) (h : ¬ isPySpace d = true) :
    (collapseWs (d :: cs)).head? = some d := by
  cases cs with
  | nil => simp [collapseWs, h]
  | cons e cs' => simp [collapseWs, h]

theorem collapseWs_ws_space :
    ∀ (l : List Char), ∀ c ∈ collapseWs l, isPySpace c = true → c = ' '
  | [] => by simp [collapseWs]
  | [a] => by
      intro c hc hws
      by_cases h : isPySpace a
      · simp only [collapseWs, if_pos h, List.mem_singleton] at hc
        exact hc
      · simp only [collapseWs, if_neg h, List.mem_singleton] at hc
        subst hc
        exact absurd hws h
  | a :: b :: l => by
      intro c hc hws
      by_cases h : isPySpace a && isPySpace b
      · simp only [collapseWs, if_pos h] at hc
        exact collapseWs_ws_space (b :: l) c hc hws
      · simp only [collapseWs, if_neg h, List.mem_cons] at hc
        rcases hc with h1 | h1
        · subst h1
          by_cases ha : isPySpace a
          · simp [ha]
          · simp only [if_neg ha] at hws ⊢
            exact absurd hws ha
        · exact collapseWs_ws_space (b :: l) c h1 hws

theorem collapseWs_mem :
    ∀ (l : List Char), ∀ c ∈ collapseWs l, c = ' ' ∨ c ∈ l
  | [] => by simp [collapseWs]
  | [a] => by
      intro c hc
      by_cases h : isPySpace a
      · simp only [collapseWs, if_pos h, List.mem_singleton] at hc
        exact Or.inl hc
      · simp only [collapseWs, if_neg h, List.mem_singleton] at hc
        exact Or.inr (by simp [hc])
  | a :: b :: l => by
      intro c hc
      by_cases h : isPySpace a && isPySpace b
      · simp only [collapseWs, if_pos h] at hc
        rcases collapseWs_mem (b :: l) c hc with h1 | h1
        · exact Or.inl h1
        · exact Or.inr (List.mem_cons_of_mem _ h1)
      · simp only [collapseWs, if_neg h, List.mem_cons] at hc
        rcases hc with h1 | h1
        · by_cases ha : isPySpace a
          · simp only [if_pos ha] at h1
            exact Or.inl h1
          · simp only [if_neg ha] at h1
            exact Or.inr (by simp [h1])
        · rcases collapseWs_mem (b :: l) c h1 with h2 | h2
          · exact Or.inl h2
          · exact Or.inr (List.mem_cons_of_mem _ h2)

theorem collapseWs_chain : ∀ (l : List Char), List.Chain' WsR (collapseWs l)
  | [] => by simp [collapseWs]
  | [a] => by
      by_cases h : isPySpace a <;> simp [collapseWs, h]
  | a :: b :: l => by
      by_cases h : isPySpace a && isPySpace b
      · simp only [collapseWs, if_pos h]
        exact collapseWs_chain (b :: l)
      · simp only [collapseWs, if_neg h]
        rw [List.chain'_cons']
        refine ⟨?_, collapseWs_chain (b :: l)⟩
        intro y hy
        by_cases ha : isPySpace a
        · have hb : ¬ isPySpace b = true := by
            intro hb
            exact h (by simp [ha, hb])
          rw [collapseWs_head_of_not_ws l hb] at hy
          have hyb : b = y := by simpa using hy
          subst hyb
          exact fun hcon => hb hcon.2
        · simp only [if_neg ha]
          exact fun hcon => ha hcon.1

theorem collapseWs_fix :
    ∀ (l : List Char), (∀ c ∈ l, isPySpace c = true → c = ' ') →
      List.Chain' WsR l → collapseWs l = l
  | [], _, _ => rfl
  | [a], hp, _ => by
      by_cases h : isPySpace a
      · have : a = ' ' := hp a (by simp) h
        simp [collapseWs, h, this]
      · simp [collapseWs, h]
  | a :: b :: l, hp, hc => by
      rw [List.chain'_cons] at hc
      have hnab : ¬(isPySpace a && isPySpace b) = true := by
        intro hab
        rcases Bool.and_eq_true_iff.1 hab with ⟨h1, h2⟩
        exact hc.1 ⟨h1, h2⟩
      simp only [collapseWs, if_neg hnab]
      have htl : collapseWs (b :: l) = b :: l :=
        collapseWs_fix (b :: l) (fun c hcm => hp c (List.mem_cons_of_mem _ hcm)) hc.2
      rw [htl]
      by_cases ha : isPySpace a
      · rw [if_pos ha, hp a (by simp) ha]
      · rw [if_neg ha]

theorem head?_dropWhile_not {α : Type} (p : α → Bool) :
    ∀ (l : List α) (c : α), (l.dropWhile p).head? = some c → p c = false
  | [], c => by intro h; simp [List.dropWhile] at h
  | a :: tl, c => by
      intro h
      rw [List.dropWhile_cons] at h
      by_cases hp : p a
      · rw [if_pos hp] at h
        exact head?_dropWhile_not p tl c h
      · rw [if_neg hp] at h
        have : a = c := by simpa using h
        subst this
        simpa using hp

theorem dropWhile_eq_self_of_head {α : Type} (p : α → Bool) (l : List α)
    (h : ∀ c, l.head? = some c → p c = false) : l.dropWhile p = l := by
  cases l with
  | nil => rfl
  | cons a tl =>
      have := h a rfl
      simp [List.dropWhile_cons, this]

theorem pyStrip_getLast_not_ws {l : List Char} {c : Char}
    (h : (pyStrip l).getLast? = some c) : isPySpace c = false := by
  unfold pyStrip dropLastWhile at h
  rw [List.getLast?_reverse] at h
  exact head?_dropWhile_not _ _ _ h

theorem pyStrip_head_not_ws {l : List Char} {c : Char}
    (h : (pyStrip l).head? = some c) : isPySpace c = false := by
  unfold pyStrip dropLastWhile at h
  rw [List.head?_reverse] at h
  set b := (l.dropWhile isPySpace).reverse.dropWhile isPySpace with hb
  obtain ⟨t, ht⟩ := List.dropWhile_suffix (l := (l.dropWhile isPySpace).reverse) isPySpace
  have hbne : b ≠ [] := by
    intro hnil
    rw [hnil] at h
    simp at h
  have : b.getLast? = ((l.dropWhile isPySpace).reverse).getLast? := by
    rw [← ht, List.getLast?_append]
    cases hgl : b.getLast? with
    | none => exact absurd (List.getLast?_eq_none_iff.1 hgl) hbne
    | some y => simp
  rw [this, List.getLast?_reverse] at h
  exact head?_dropWhile_not _ _ _ h

theorem pyStrip_eq_self (l : List Char)
    (h1 : ∀ c, l.head? = some c → isPySpace c = false)
    (h2 : ∀ c, l.getLast? = some c → isPySpace c = false) : pyStrip l = l := by
  unfold pyStrip dropLastWhile
  rw [dropWhile_eq_self_of_head _ _ h1]
  rw [dropWhile_eq_self_of_head _ _ (fun c hc => h2 c (by rwa [List.head?_reverse] at hc))]
  exact List.reverse_reverse l

theorem pyStrip_idem (l : List Char) : pyStrip (pyStrip l) = pyStrip l :=
  pyStrip_eq_self _ (fun _ hc => pyStrip_head_not_ws hc)
    (fun _ hc => pyStrip_getLast_not_ws hc)

theorem pyStrip_decomp (l : List Char) : ∃ s t, s ++ (pyStrip l ++ t) = l := by
  obtain ⟨u, hu⟩ := List.dropWhile_suffix (l := (l.dropWhile isPySpace).reverse) isPySpace
  obtain ⟨v, hv⟩ := List.dropWhile_suffix (l := l) isPySpace
  refine ⟨v, u.reverse, ?_⟩
  have h2 := congrArg List.reverse hu
  rw [List.reverse_append, List.reverse_reverse] at h2
  unfold pyStrip dropLastWhile
  rw [h2]
  exact hv

theorem pyStrip_mem {l : List Char} {c : Char} (h : c ∈ pyStrip l) : c ∈ l := by
  obtain ⟨s, t, hst⟩ := pyStrip_decomp l
  rw [← hst]
  exact List.mem_append.2 (Or.inr (List.mem_append.2 (Or.inl h)))

theorem pyStrip_chain {l : List Char} (h : List.Chain' WsR l) :
    List.Chain' WsR (pyStrip l) := by
  obtain ⟨s, t, hst⟩ := pyStrip_decomp l
  rw [← hst] at h
  exact h.right_of_append.left_of_append

theorem replNbsp_replNbsp (a : Char) : replNbsp (replNbsp a) = replNbsp a := by
  unfold replNbsp
  by_cases h : a = ' ' <;> simp [h]

theorem normalize_fragment_idem (s : String) :
    normalize_fragment (normalize_fragment s) = normalize_fragment s := by
  unfold normalize_fragment
  congr 1
  have htl : (String.mk (pyStrip (collapseWs (s.toList.map replNbsp)))).toList =
      pyStrip (collapseWs (s.toList.map replNbsp)) := rfl
  rw [htl]
  set m := pyStrip (collapseWs (s.toList.map replNbsp)) with hm
  have hmem : ∀ c ∈ m, c = ' ' ∨ c ∈ s.toList.map replNbsp := fun c hc =>
    collapseWs_mem _ c (pyStrip_mem hc)
  have hmap : m.map replNbsp = m := by
    refine (List.map_congr_left ?_).trans (List.map_id m)
    intro c hc
    rcases hmem c hc with h | h
    · rw [h]; rfl
    · rcases List.mem_map.1 h with ⟨a, _, ha⟩
      rw [← ha]
      exact replNbsp_replNbsp a
  have hcoll : collapseWs m = m := by
    refine collapseWs_fix m ?_ ?_
    · intro c hc hws
      exact collapseWs_ws_space _ c (pyStrip_mem hc) hws
    · exact pyStrip_chain (collapseWs_chain _)
  rw [hmap, hcoll, hm]
  exact pyStrip_idem _

/-! ## Claim theorems (first batch) -/

/-- C1: on the five-element input stream (a `//Table` root declaring
`NumCol = 2`, two `TH` cells "Name"/"Age" in `TR[1]`, two `TD` cells
"Alice"/"30" in `TR[2]`), `extract_tables` produces exactly one table,
and `assemble_rows` on it returns the row matrix
`[["Name", "Age"], ["Alice", "30"]]` with one header row. -/
theorem c1_end_to_end :
    (extract_tables c1Elems).map
      (fun ts => (ts.length, ts.map (fun t => (assemble_rows t).1))) =
    Except.ok (1, [([["Name", "Age"], ["Alice", "30"]], 1)]) := by rfl

/-- C2, counterexample: in the stream `c2Elems` two text-bearing
elements carry the same raw cell segment `TD[1]` in row 1 of the same
table, yet the resulting table assigns them one single column position
(the whole column order of row 1 is `[((TD, 1), 1)]`) holding both
fragments `["X", "Y"]` — not two distinct sequential positions as the
claim states. -/
theorem c2_counterexample :
    (extract_tables c2Elems).map
      (fun ts => ts.map (fun t => (t.column_order, t.cells))) =
    Except.ok [([(1, [(("TD", 1), 1)])], [(1, [(1, ["X", "Y"])])])] := by rfl

/-- C7: `assemble_rows` is read-only with respect to the table
accumulator: the table state it returns (second component of the
embedding, threading the dictionary through the call) is exactly the
table it was given, so `cells`, `row_meta`, `column_order`,
`attributes`, `title` and `page` are all unchanged. -/
theorem c7_assemble_rows_read_only (t : Table) : (assemble_rows t).2 = t := by
  unfold assemble_rows
  dsimp only
  split
  · rfl
  · split <;> rfl

/-- C10: table-root detection matches the substring `/Table` anywhere
in the path rather than a complete `Table` segment: the single
text-bearing element with path `//Document/TableOfContents/P[1]` makes
`extract_tables` create exactly one table, whose id is the path's
prefix ending at that substring match, `//Document/Table`. -/
theorem c10_substring_table_root :
    (extract_tables c10Elems).map (fun ts => ts.map Table.id) =
    Except.ok ["//Document/Table"] := by rfl

/-! ## Fold lemmas for the column-count computation -/

theorem foldl_max_pairs (l : List (Nat × List String)) (a : Nat) :
    l.foldl (fun x pc => max x pc.1) a = (l.map Prod.fst).foldl max a :=
  (List.foldl_map _ _ _ _).symm

theorem foldl_max_eq_foldr (l : List Nat) (a : Nat) :
    l.foldl max a = max a (l.foldr max 0) := by
  induction l generalizing a with
  | nil => simp
  | cons x xs ih =>
      simp only [List.foldl_cons, List.foldr_cons, ih (max a x)]
      rw [Nat.max_assoc]

theorem foldr_max_append (l1 l2 : List Nat) :
    (l1 ++ l2).foldr max 0 = max (l1.foldr max 0) (l2.foldr max 0) := by
  induction l1 with
  | nil => simp
  | cons x xs ih =>
      simp only [List.cons_append, List.foldr_cons, ih]
      rw [Nat.max_assoc]

theorem observed_cols_eq (t : Table) :
    observed_cols t = ((t.cells.map (fun rc => rc.2.map Prod.fst)).flatten).foldr max 0 := by
  suffices h : ∀ (cs : List (Nat × List (Nat × List String))) (a : Nat),
      cs.foldl (fun acc rc => if rc.2.isEmpty then acc
          else max acc (rc.2.foldl (fun x pc => max x pc.1) 0)) a
        = max a (((cs.map (fun rc => rc.2.map Prod.fst)).flatten).foldr max 0) by
    have h0 := h t.cells 0
    simpa [observed_cols] using h0
  intro cs
  induction cs with
  | nil => intro a; simp
  | cons rc rest ih =>
      intro a
      by_cases hemp : rc.2.isEmpty
      · have hnil : rc.2 = [] := by simpa using hemp
        simp only [List.foldl_cons, hemp, if_true, List.map_cons, List.flatten_cons, hnil,
          List.map_nil, List.nil_append]
        exact ih a
      · simp only [List.foldl_cons, if_neg hemp, ih, List.map_cons, List.flatten_cons]
        rw [foldl_max_pairs, foldl_max_eq_foldr, foldr_max_append]
        simp [Nat.max_assoc]

/-! ## `extract_tables` success and failure -/

theorem extractLoop_error :
    ∀ (es : List Element) (st : ExtState), (∃ e ∈ es, e.path = none) →
      extractLoop st es = .error "KeyError: Path"
  | [], st => by
      intro h
      simp at h
  | e :: es, st => by
      intro h
      cases hep : e.path with
      | none => simp [extractLoop, processElement, hep]
      | some p =>
          have hes : ∃ x ∈ es, x.path = none := by
            rcases h with ⟨e', he', hp⟩
            rcases List.mem_cons.1 he' with he' | he'
            · subst he'; rw [hep] at hp; cases hp
            · exact ⟨e', he', hp⟩
          simp only [extractLoop, processElement, hep]
          exact extractLoop_error es _ hes

theorem extractLoop_ok :
    ∀ (es : List Element) (st : ExtState), (∀ e ∈ es, e.path ≠ none) →
      ∃ st2, extractLoop st es = .ok st2
  | [], st => fun _ => ⟨st, rfl⟩
  | e :: es, st => by
      intro h
      cases hep : e.path with
      | none => exact absurd hep (h e (List.mem_cons_self e es))
      | some p =>
          simp only [extractLoop, processElement, hep]
          exact extractLoop_ok es _ (fun x hx => h x (List.mem_cons_of_mem _ hx))

/-! ## Claim theorems: C5, C8, C9 -/

/-- C5: the pre-trim column count `num_cols` of `assemble_rows` equals
the maximum of the declared `NumCol` attribute (0 when absent, which is
`declared_cols`) and the maximum column position observed across all
rows of the table; when that maximum is zero `assemble_rows` returns
`([], 0)`. -/
theorem c5_num_cols (t : Table) :
    num_cols_val t =
      max (declared_cols t)
        (((t.cells.map (fun rc => rc.2.map Prod.fst)).flatten.foldr max 0 : Nat) : Int) ∧
    (num_cols_val t = 0 → (assemble_rows t).1 = ([], 0)) := by
  constructor
  · unfold num_cols_val
    rw [observed_cols_eq]
  · intro h
    simp [assemble_rows, h]

/-- Witness for C5 at a concrete table with no attributes and no
cells: the computed column count is zero and the result is `([], 0)`. -/
theorem c5_num_cols_witness :
    (assemble_rows ⟨"//Table", none, none, [], [], [], []⟩).1 = ([], 0) :=
  (c5_num_cols ⟨"//Table", none, none, [], [], [], []⟩).2 (by decide)

/-- C8: `extract_tables` aborts with an error (the embedded `KeyError`)
on every element stream containing an element that lacks the `Path`
field, producing no table output, and succeeds on every stream in which
all elements carry a `Path`. -/
theorem c8_missing_path (es : List Element) :
    ((∃ e ∈ es, e.path = none) → extract_tables es = .error "KeyError: Path") ∧
    ((∀ e ∈ es, e.path ≠ none) → ∃ ts, extract_tables es = .ok ts) := by
  constructor
  · intro h
    unfold extract_tables
    rw [extractLoop_error es initState h]
    rfl
  · intro h
    obtain ⟨st2, hst2⟩ := extractLoop_ok es initState h
    exact ⟨finalizeTables st2, by unfold extract_tables; rw [hst2]; rfl⟩

/-- Witness for C8: a one-element stream without `Path` errors out, and
a one-element stream with a `Path` succeeds. -/
theorem c8_missing_path_witness :
    extract_tables [⟨none, some "x", none, none⟩] = .error "KeyError: Path" ∧
    ∃ ts, extract_tables [⟨some "//P", none, none, none⟩] = .ok ts :=
  ⟨(c8_missing_path [⟨none, some "x", none, none⟩]).1
      ⟨⟨none, some "x", none, none⟩, List.mem_singleton.2 rfl, rfl⟩,
   (c8_missing_path [⟨some "//P", none, none, none⟩]).2
      (by intro e he; rw [List.mem_singleton.1 he]; simp)⟩

/-- C9: `normalize_fragment` is idempotent on every string, and maps
`"A  B\n C "` (with two non-breaking spaces and a newline) to
`"A B C"`. -/
theorem c9_normalize_idempotent :
    (∀ s : String, normalize_fragment (normalize_fragment s) = normalize_fragment s) ∧
    normalize_fragment "A\u00a0\u00a0B\n C " = "A B C" :=
  ⟨normalize_fragment_idem, by rfl⟩

/-! ## More association list lemmas -/

theorem setA_eq_append {α β : Type} [DecidableEq α] {l : List (α × β)} {k : α} (v : β)
    (h : lookupA l k = none) : setA l k v = l ++ [(k, v)] := by
  induction l with
  | nil => rfl
  | cons p rest ih =>
      by_cases hp : p.1 = k
      · simp [lookupA, hp] at h
      · simp only [lookupA, if_neg hp] at h
        simp [setA, hp, ih h]

theorem lookupA_of_mem_nodup {α β : Type} [DecidableEq α] {l : List (α × β)} {k : α} {v : β}
    (hnd : (l.map Prod.fst).Nodup) (hm : (k, v) ∈ l) : lookupA l k = some v := by
  induction l with
  | nil => simp at hm
  | cons p rest ih =>
      rw [List.map_cons, List.nodup_cons] at hnd
      rcases List.mem_cons.1 hm with h | h
      · rw [← h]
        simp [lookupA]
      · have hpk : p.1 ≠ k := by
          intro he
          exact hnd.1 (he ▸ List.mem_map.2 ⟨(k, v), h, rfl⟩)
        simp [lookupA, hpk, ih hnd.2 h]

theorem lookupA_append_single_ne {α β : Type} [DecidableEq α] (l : List (α × β)) {k r0 : α}
    (v : β) (h : k ≠ r0) : lookupA (l ++ [(r0, v)]) k = lookupA l k := by
  cases hc : lookupA l k with
  | some w => exact lookupA_append_some hc _
  | none =>
      rw [lookupA_append_none hc]
      simp [lookupA, Ne.symm h]

theorem lookupA_some_of_mem_fst {α β : Type} [DecidableEq α] {l : List (α × β)} {k : α}
    (h : k ∈ l.map Prod.fst) : ∃ v, lookupA l k = some v := by
  cases hc : lookupA l k with
  | none => exact absurd (lookupA_eq_none_iff.1 hc) (by simpa using h)
  | some v => exact ⟨v, rfl⟩

/-! ## Invariant lemmas -/

theorem TInv_newTable (root : String) (title : Option String) (page : Option Int) :
    TInv (newTable root title page) := by
  refine ⟨?_, ?_, ?_, ?_, ?_, ?_⟩ <;> simp [newTable, lookupA]

theorem TInv_of_core {a b : Table} (hc : a.cells = b.cells)
    (ho : a.column_order = b.column_order) (h : TInv b) : TInv a := by
  refine ⟨?_, ?_, ?_, ?_, ?_, ?_⟩
  · rw [ho]; exact h.co_seq
  · rw [hc]; exact h.cells_pos
  · rw [hc]; exact h.cells_ne
  · rw [hc]; exact h.frags_ok
  · rw [hc, ho]; exact h.link
  · rw [hc]; exact h.cells_nodup

theorem recordCell_cells_extend (t : Table) (r ci : Nat) (ct frag : String) (r' p' : Nat) :
    cellFragsOf (recordCell t r ct ci frag) r' p' = cellFragsOf t r' p' ∨
    cellFragsOf (recordCell t r ct ci frag) r' p' = cellFragsOf t r' p' ++ [frag] := by
  unfold cellFragsOf recordCell
  dsimp only
  by_cases hr : r' = r
  · subst hr
    rw [lookupA_setA_self]
    simp only [Option.getD_some]
    by_cases hp : p' = recordPos t r' ct ci
    · subst hp
      rw [lookupA_setA_self]
      simp
    · rw [lookupA_setA_ne _ _ _ _ hp]
      left; rfl
  · rw [lookupA_setA_ne _ _ _ _ hr]
    left; rfl

theorem setA_ne_nil {α β : Type} [DecidableEq α] (l : List (α × β)) (k : α) (v : β) :
    setA l k v ≠ [] := by
  cases l with
  | nil => simp [setA]
  | cons p rest => by_cases hp : p.1 = k <;> simp [setA, hp]

theorem mem_range1_iff (m n : Nat) : m ∈ List.range' 1 n ↔ 1 ≤ m ∧ m ≤ n := by
  rw [List.mem_range']
  constructor
  · rintro ⟨i, hi, rfl⟩
    omega
  · rintro ⟨h1, h2⟩
    exact ⟨m - 1, by omega, by omega⟩

/-- `recordCell` preserves the table invariant when the recorded
fragment is non-empty and stripped. -/
theorem TInv_recordCell {t : Table} (h : TInv t) (r ci : Nat) (ct : String) {frag : String}
    (hne : frag ≠ "") (hstr : pyStrip frag.toList = frag.toList) :
    TInv (recordCell t r ct ci frag) := by
  have hrowfst : ((lookupA t.cells r).getD []).map Prod.fst =
      List.range' 1 ((lookupA t.cells r).getD []).length := by
    cases hc : lookupA t.cells r with
    | none => simp
    | some v => simpa using h.cells_pos (r, v) (lookupA_mem hc)
  have hcosnd : ((lookupA t.column_order r).getD []).map Prod.snd =
      List.range' 1 ((lookupA t.column_order r).getD []).length := by
    cases hc : lookupA t.column_order r with
    | none => simp
    | some v => simpa using h.co_seq (r, v) (lookupA_mem hc)
  have hlen := h.link r
  cases hk : lookupA ((lookupA t.column_order r).getD []) (ct, ci) with
  | some p =>
      obtain ⟨co0, hco0⟩ : ∃ co0, lookupA t.column_order r = some co0 := by
        cases hc : lookupA t.column_order r with
        | none => rw [hc] at hk; simp [lookupA] at hk
        | some v => exact ⟨v, rfl⟩
      have hk' : lookupA co0 (ct, ci) = some p := by rw [hco0] at hk; simpa using hk
      have hpmem : ((ct, ci), p) ∈ co0 := lookupA_mem hk'
      have hco0seq : co0.map Prod.snd = List.range' 1 co0.length := by
        rw [hco0] at hcosnd; simpa using hcosnd
      have hprange : p ∈ List.range' 1 co0.length := by
        rw [← hco0seq]
        exact List.mem_map.2 ⟨((ct, ci), p), hpmem, rfl⟩
      have hp1 : 1 ≤ p ∧ p ≤ co0.length := (mem_range1_iff p co0.length).1 hprange
      obtain ⟨row0, hrow0⟩ : ∃ row0, lookupA t.cells r = some row0 := by
        cases hc : lookupA t.cells r with
        | none =>
            rw [hc, hco0] at hlen
            simp at hlen
            omega
        | some v => exact ⟨v, rfl⟩
      have hrowlen : row0.length = co0.length := by
        rw [hrow0, hco0] at hlen; simpa using hlen
      have hrow0fst : row0.map Prod.fst = List.range' 1 row0.length := by
        rw [hrow0] at hrowfst; simpa using hrowfst
      obtain ⟨cell0, hcell0⟩ : ∃ cell0, lookupA row0 p = some cell0 := by
        apply lookupA_some_of_mem_fst
        rw [hrow0fst, hrowlen]
        exact hprange
      have hpos : recordPos t r ct ci = p := by
        unfold recordPos
        rw [hco0]
        simp [hk']
      have hres_co : (recordCell t r ct ci frag).column_order = t.column_order := by
        unfold recordCell
        dsimp only
        rw [hco0]
        simp only [Option.getD_some, hk']
        exact setA_eq_of_lookupA hco0
      have hres_cells : (recordCell t r ct ci frag).cells =
          setA t.cells r (setA row0 p (cell0 ++ [frag])) := by
        unfold recordCell
        dsimp only
        rw [hpos, hrow0]
        simp only [Option.getD_some, hcell0]
      have hsetAlen : (setA row0 p (cell0 ++ [frag])).length = row0.length := by
        have h2 := congrArg List.length (map_fst_setA_some (v := cell0 ++ [frag]) hcell0)
        simpa using h2
      refine ⟨?_, ?_, ?_, ?_, ?_, ?_⟩
      · rw [hres_co]; exact h.co_seq
      · rw [hres_cells]
        intro rc hrc
        rcases mem_setA hrc with hold | hnew
        · exact h.cells_pos rc hold
        · rw [hnew]
          simp only
          rw [map_fst_setA_some hcell0, hsetAlen]
          exact h.cells_pos (r, row0) (lookupA_mem hrow0)
      · rw [hres_cells]
        intro rc hrc
        rcases mem_setA hrc with hold | hnew
        · exact h.cells_ne rc hold
        · rw [hnew]
          exact setA_ne_nil _ _ _
      · rw [hres_cells]
        intro rc hrc
        rcases mem_setA hrc with hold | hnew
        · exact h.frags_ok rc hold
        · rw [hnew]
          intro pc hpc
          rcases mem_setA hpc with hpold | hpnew
          · exact h.frags_ok (r, row0) (lookupA_mem hrow0) pc hpold
          · rw [hpnew]
            refine ⟨by simp, ?_⟩
            intro f hf
            rcases List.mem_append.1 hf with hf | hf
            · exact (h.frags_ok (r, row0) (lookupA_mem hrow0) (p, cell0)
                (lookupA_mem hcell0)).2 f hf
            · rw [List.mem_singleton.1 hf]
              exact ⟨hne, hstr⟩
      · intro r'
        rw [hres_cells, hres_co]
        by_cases hr' : r' = r
        · subst hr'
          rw [lookupA_setA_self, hco0]
          simp [hsetAlen, hrowlen]
        · rw [lookupA_setA_ne _ _ _ _ hr']
          exact h.link r'
      · rw [hres_cells, map_fst_setA_some hrow0]
        exact h.cells_nodup
  | none =>
      have hpos : recordPos t r ct ci =
          ((lookupA t.column_order r).getD []).length + 1 := by
        unfold recordPos
        simp [hk]
      have hrowpos_none :
          lookupA ((lookupA t.cells r).getD [])
            (((lookupA t.column_order r).getD []).length + 1) = none := by
        apply lookupA_eq_none_iff.2
        rw [hrowfst, hlen]
        intro hmem
        have := (mem_range1_iff _ _).1 hmem
        omega
      have hres_co : (recordCell t r ct ci frag).column_order =
          setA t.column_order r ((lookupA t.column_order r).getD [] ++
            [((ct, ci), ((lookupA t.column_order r).getD []).length + 1)]) := by
        unfold recordCell
        dsimp only
        simp only [hk]
      have hres_cells : (recordCell t r ct ci frag).cells =
          setA t.cells r (setA ((lookupA t.cells r).getD [])
            (((lookupA t.column_order r).getD []).length + 1) [frag]) := by
        unfold recordCell
        dsimp only
        rw [hpos]
        simp only [hrowpos_none, Option.getD_none, List.nil_append]
      have hrownew : setA ((lookupA t.cells r).getD [])
            (((lookupA t.column_order r).getD []).length + 1) [frag] =
          (lookupA t.cells r).getD [] ++
            [((((lookupA t.column_order r).getD []).length + 1), [frag])] :=
        setA_eq_append _ hrowpos_none
      have hrowmem : ∀ pc ∈ (lookupA t.cells r).getD [],
          pc.2 ≠ [] ∧ ∀ f ∈ pc.2, f ≠ "" ∧ pyStrip f.toList = f.toList := by
        cases hc : lookupA t.cells r with
        | none => simp
        | some v =>
            intro pc hpc
            exact h.frags_ok (r, v) (lookupA_mem hc) pc (by simpa using hpc)
      refine ⟨?_, ?_, ?_, ?_, ?_, ?_⟩
      · rw [hres_co]
        intro rc hrc
        rcases mem_setA hrc with hold | hnew
        · exact h.co_seq rc hold
        · rw [hnew]
          simp only [List.map_append, List.length_append]
          rw [hcosnd]
          simp [List.range'_1_concat, Nat.add_comm 1]
      · rw [hres_cells]
        intro rc hrc
        rcases mem_setA hrc with hold | hnew
        · exact h.cells_pos rc hold
        · rw [hnew, hrownew]
          simp only [List.map_append, List.length_append]
          rw [hrowfst, hlen]
          simp [List.range'_1_concat, Nat.add_comm 1]
      · rw [hres_cells]
        intro rc hrc
        rcases mem_setA hrc with hold | hnew
        · exact h.cells_ne rc hold
        · rw [hnew]
          exact setA_ne_nil _ _ _
      · rw [hres_cells]
        intro rc hrc
        rcases mem_setA hrc with hold | hnew
        · exact h.frags_ok rc hold
        · rw [hnew, hrownew]
          intro pc hpc
          rcases List.mem_append.1 hpc with hpold | hpnew
          · exact hrowmem pc hpold
          · rw [List.mem_singleton.1 hpnew]
            exact ⟨by simp, fun f hf => by
              rw [List.mem_singleton.1 hf]; exact ⟨hne, hstr⟩⟩
      · intro r'
        rw [hres_cells, hres_co]
        by_cases hr' : r' = r
        · subst hr'
          rw [lookupA_setA_self, lookupA_setA_self, hrownew]
          simp [hlen]
        · rw [lookupA_setA_ne _ _ _ _ hr', lookupA_setA_ne _ _ _ _ hr']
          exact h.link r'
      · rw [hres_cells]
        cases hc : lookupA t.cells r with
        | some v =>
            rw [map_fst_setA_some hc]
            exact h.cells_nodup
        | none =>
            rw [map_fst_setA_none hc]
            have hnotin : r ∉ t.cells.map Prod.fst := lookupA_eq_none_iff.1 hc
            simp [List.nodup_append, h.cells_nodup, hnotin]

theorem normalize_stripped (s : String) :
    pyStrip (normalize_fragment s).toList = (normalize_fragment s).toList := by
  have h : (normalize_fragment s).toList =
      pyStrip (collapseWs (s.toList.map replNbsp)) := rfl
  rw [h]
  exact pyStrip_idem _

/-- Shape of the table written back by `tableStep`: it is `setA` of one
table whose `cells`/`column_order` either agree with the looked-up
table or are one `recordCell` step away from it. -/
theorem tableStep_tables (st1 : ExtState) (e : Element) (path root : String)
    (rem : List Char) (tables0 : List (String × Table)) (order0 : List String)
    (tbl0 : Table) (hlook : lookupA tables0 root = some tbl0) :
    ∃ tblX, (tableStep st1 e path root rem tables0 order0).tables = setA tables0 root tblX ∧
      ((tblX.cells = tbl0.cells ∧ tblX.column_order = tbl0.column_order) ∨
        ∃ (r ci : Nat) (ct : String) (tbl1 : Table) (frag : String),
          tbl1.cells = tbl0.cells ∧ tbl1.column_order = tbl0.column_order ∧
          frag ≠ "" ∧ pyStrip frag.toList = frag.toList ∧
          tblX = recordCell tbl1 r ct ci frag) := by
  unfold tableStep
  rw [hlook]
  dsimp only [Option.getD_some]
  have h1c : (if tbl0.page = none ∧ e.page ≠ none then { tbl0 with page := e.page }
      else tbl0).cells = tbl0.cells := by split <;> rfl
  have h1o : (if tbl0.page = none ∧ e.page ≠ none then { tbl0 with page := e.page }
      else tbl0).column_order = tbl0.column_order := by split <;> rfl
  set tbl1 := if tbl0.page = none ∧ e.page ≠ none then { tbl0 with page := e.page }
      else tbl0 with htbl1
  by_cases hroot : path = root
  · rw [if_pos hroot]
    refine ⟨_, rfl, Or.inl ⟨?_, ?_⟩⟩
    · have h3c : ∀ x : Table, (if x.title = none then
          { x with title := current_heading_title st1.heading_by_level }
          else x).cells = x.cells := by intro x; split <;> rfl
      rw [h3c]
      cases e.attributes with
      | none => exact h1c
      | some attrs =>
          dsimp only
          split
          · exact h1c
          · exact h1c
    · have h3o : ∀ x : Table, (if x.title = none then
          { x with title := current_heading_title st1.heading_by_level }
          else x).column_order = x.column_order := by intro x; split <;> rfl
      rw [h3o]
      cases e.attributes with
      | none => exact h1o
      | some attrs =>
          dsimp only
          split
          · exact h1o
          · exact h1o
  · rw [if_neg hroot]
    cases e.text with
    | none => exact ⟨tbl1, rfl, Or.inl ⟨h1c, h1o⟩⟩
    | some txt =>
        dsimp only
        rcases hw1 : (cellWalk (((splitSlash rem).filter (fun l => !l.isEmpty)).map
            String.mk)).1 with _ | r
        · rw [hw1]
          exact ⟨tbl1, rfl, Or.inl ⟨h1c, h1o⟩⟩
        · rcases hw2 : (cellWalk (((splitSlash rem).filter (fun l => !l.isEmpty)).map
              String.mk)).2.1 with _ | ci
          · rw [hw1, hw2]
            exact ⟨tbl1, rfl, Or.inl ⟨h1c, h1o⟩⟩
          · rcases hw3 : (cellWalk (((splitSlash rem).filter (fun l => !l.isEmpty)).map
                String.mk)).2.2 with _ | ct
            · rw [hw1, hw2, hw3]
              exact ⟨tbl1, rfl, Or.inl ⟨h1c, h1o⟩⟩
            · rw [hw1, hw2, hw3]
              dsimp only
              by_cases hfr : normalize_fragment txt = ""
              · rw [if_pos hfr]
                exact ⟨tbl1, rfl, Or.inl ⟨h1c, h1o⟩⟩
              · rw [if_neg hfr]
                exact ⟨recordCell tbl1 r ct ci (normalize_fragment txt), rfl,
                  Or.inr ⟨r, ci, ct, tbl1, normalize_fragment txt, h1c, h1o, hfr,
                    normalize_stripped txt, rfl⟩⟩

/-- Shape of one `processElementOk` step: either the table map is
untouched, or it is `setA tables0 root tblX` where `tables0` extends
the previous map by at most one fresh empty table and `tblX` differs
from the looked-up table only by metadata and at most one
`recordCell`. -/
theorem processElementOk_cases (st : ExtState) (e : Element) (path : String) :
    (processElementOk st e path).tables = st.tables ∨
    ∃ (root : String) (tables0 : List (String × Table)) (tbl0 tblX : Table),
      (∀ kt ∈ tables0, kt ∈ st.tables ∨ ∃ ttl pg, kt.2 = newTable kt.1 ttl pg) ∧
      lookupA tables0 root = some tbl0 ∧
      (∀ k : String, k ≠ root → lookupA tables0 k = lookupA st.tables k) ∧
      (lookupA st.tables root = some tbl0 ∨
        (lookupA st.tables root = none ∧ ∃ ttl pg, tbl0 = newTable root ttl pg)) ∧
      (processElementOk st e path).tables = setA tables0 root tblX ∧
      ((tblX.cells = tbl0.cells ∧ tblX.column_order = tbl0.column_order) ∨
        ∃ (r ci : Nat) (ct : String) (tbl1 : Table) (frag : String),
          tbl1.cells = tbl0.cells ∧ tbl1.column_order = tbl0.column_order ∧
          frag ≠ "" ∧ pyStrip frag.toList = frag.toList ∧
          tblX = recordCell tbl1 r ct ci frag) := by
  unfold processElementOk
  cases hsp : splitTableRoot path.toList with
  | none => left; rfl
  | some pr =>
      right
      dsimp only
      by_cases hnew : (lookupA st.tables (String.mk pr.1)).isNone = true
      · have hnone : lookupA st.tables (String.mk pr.1) = none :=
          Option.isNone_iff_eq_none.1 hnew
        rw [if_pos hnew, if_pos hnew]
        have hlook : lookupA (st.tables ++ [(String.mk pr.1, newTable (String.mk pr.1)
            (current_heading_title (headingUpdate st.heading_fragments
              st.heading_by_level path (e.text.getD "")).2) e.page)]) (String.mk pr.1) =
            some (newTable (String.mk pr.1)
              (current_heading_title (headingUpdate st.heading_fragments
                st.heading_by_level path (e.text.getD "")).2) e.page) := by
          rw [lookupA_append_none hnone]
          simp [lookupA]
        obtain ⟨tblX, hX, hcore⟩ := tableStep_tables _ e path _ pr.2 _ _ _ hlook
        refine ⟨String.mk pr.1, _, _, tblX, ?_, hlook, ?_, ?_, hX, hcore⟩
        · intro kt hkt
          rcases List.mem_append.1 hkt with hkt | hkt
          · left; exact hkt
          · right
            refine ⟨current_heading_title (headingUpdate st.heading_fragments
              st.heading_by_level path (e.text.getD "")).2, e.page, ?_⟩
            rw [List.mem_singleton.1 hkt]
        · intro k hk
          exact lookupA_append_single_ne _ _ hk
        · right
          exact ⟨hnone, current_heading_title (headingUpdate st.heading_fragments
            st.heading_by_level path (e.text.getD "")).2, e.page, rfl⟩
      · obtain ⟨t0, ht0⟩ : ∃ v, lookupA st.tables (String.mk pr.1) = some v := by
          cases hcc : lookupA st.tables (String.mk pr.1) with
          | none => rw [hcc] at hnew; simp at hnew
          | some v => exact ⟨v, rfl⟩
        rw [if_neg hnew, if_neg hnew]
        obtain ⟨tblX, hX, hcore⟩ := tableStep_tables _ e path _ pr.2 _ _ _ ht0
        exact ⟨String.mk pr.1, st.tables, t0, tblX, fun kt hkt => Or.inl hkt, ht0,
          fun _ _ => rfl, Or.inl ht0, hX, hcore⟩

theorem SInv_processElementOk {st : ExtState} (h : SInv st) (e : Element) (path : String) :
    SInv (processElementOk st e path) := by
  rcases processElementOk_cases st e path with heq |
    ⟨root, T0, tbl0, tblX, hmem, hlook, _, _, heq, hcore⟩
  · intro kt hkt
    rw [heq] at hkt
    exact h kt hkt
  · intro kt hkt
    rw [heq] at hkt
    have hT0inv : ∀ kt2 ∈ T0, TInv kt2.2 := by
      intro kt2 hkt2
      rcases hmem kt2 hkt2 with hm0 | ⟨ttl, pg, hm⟩
      · exact h kt2 hm0
      · rw [hm]
        exact TInv_newTable _ _ _
    have htbl0 : TInv tbl0 := hT0inv (root, tbl0) (lookupA_mem hlook)
    rcases mem_setA hkt with hold | hnewkt
    · exact hT0inv kt hold
    · rw [hnewkt]
      rcases hcore with ⟨hc, ho⟩ | ⟨r, ci, ct, tbl1, frag, hc, ho, hne, hstr, hX⟩
      · exact TInv_of_core hc ho htbl0
      · rw [hX]
        exact TInv_recordCell (TInv_of_core hc ho htbl0) r ci ct hne hstr

theorem SInv_extractLoop : ∀ (es : List Element) (st st2 : ExtState),
    extractLoop st es = .ok st2 → SInv st → SInv st2
  | [], st, st2 => by
      intro h hs
      cases h
      exact hs
  | e :: es, st, st2 => by
      intro h hs
      cases hep : e.path with
      | none => simp [extractLoop, processElement, hep] at h
      | some p =>
          simp only [extractLoop, processElement, hep] at h
          exact SInv_extractLoop es _ st2 h (SInv_processElementOk hs e p)

/-- Every table returned by `extract_tables` satisfies the structural
invariant. -/
theorem extract_tables_TInv {es : List Element} {ts : List Table}
    (h : extract_tables es = .ok ts) : ∀ t ∈ ts, TInv t := by
  unfold extract_tables at h
  cases hl : extractLoop initState es with
  | error m => rw [hl] at h; simp [Except.map] at h
  | ok st2 =>
      rw [hl] at h
      simp only [Except.map] at h
      cases h
      intro t ht
      have hsinv : SInv st2 :=
        SInv_extractLoop es initState st2 hl (by intro kt hkt; simp [initState] at hkt)
      unfold finalizeTables at ht
      rcases List.mem_filterMap.1 ht with ⟨k, _, hk⟩
      exact hsinv (k, t) (lookupA_mem hk)

/-- One accepted element never removes or replaces fragments already
stored in any cell of any table: per cell, the new fragment list is
the old one possibly extended on the right. -/
theorem processElement_frags_extend {st st2 : ExtState} {e : Element}
    (h : processElement st e = .ok st2) (root : String) (r p : Nat) :
    ∃ l2, stateCellFrags st2 root r p = stateCellFrags st root r p ++ l2 := by
  cases hep : e.path with
  | none => simp [processElement, hep] at h
  | some pa =>
      simp only [processElement, hep] at h
      cases h
      rcases processElementOk_cases st e pa with heq |
        ⟨root0, T0, tbl0, tblX, hmem, hlook, hother, hconn, heq, hcore⟩
      · unfold stateCellFrags
        rw [heq]
        exact ⟨[], (List.append_nil _).symm⟩
      · unfold stateCellFrags
        rw [heq]
        by_cases hr : root = root0
        · subst hr
          rw [lookupA_setA_self]
          simp only [Option.getD_some]
          rcases hconn with hc | ⟨hcnone, ttl, pg, hnewtbl⟩
          · rw [hc]
            simp only [Option.getD_some]
            rcases hcore with ⟨hcc, hoo⟩ | ⟨r0, ci0, ct0, tbl1, frag, hcc, hoo, _, _, hX⟩
            · refine ⟨[], ?_⟩
              rw [List.append_nil]
              unfold cellFragsOf
              rw [hcc]
            · have h1 : cellFragsOf tbl1 r p = cellFragsOf tbl0 r p := by
                unfold cellFragsOf
                rw [hcc]
              rw [hX]
              rcases recordCell_cells_extend tbl1 r0 ci0 ct0 frag r p with hh | hh
              · exact ⟨[], by rw [hh, h1, List.append_nil]⟩
              · exact ⟨[frag], by rw [hh, h1]⟩
          · rw [hcnone]
            have hz : cellFragsOf ((none : Option Table).getD (newTable root none none))
                r p = [] := by
              unfold cellFragsOf newTable
              simp [lookupA]
            rw [hz]
            exact ⟨cellFragsOf tblX r p, rfl⟩
        · rw [lookupA_setA_ne _ _ _ _ hr, hother root hr]
          exact ⟨[], (List.append_nil _).symm⟩

/-! ## Header-row counting -/

theorem le_foldr_max : ∀ (L : List Nat) (a : Nat), a ∈ L → a ≤ L.foldr max 0
  | [], a => by intro h; simp at h
  | b :: L', a => by
      intro h
      rcases List.mem_cons.1 h with h | h
      · subst h
        exact Nat.le_max_left _ _
      · exact Nat.le_trans (le_foldr_max L' a h) (Nat.le_max_right _ _)

theorem TInv_obs_pos {t : Table} (h : TInv t) (hne : t.cells ≠ []) :
    1 ≤ observed_cols t := by
  rw [observed_cols_eq]
  cases hc : t.cells with
  | nil => exact absurd hc hne
  | cons rc rest =>
      have hmem : (1 : Nat) ∈ (((rc :: rest).map
          (fun rc => rc.2.map Prod.fst)).flatten) := by
        apply List.mem_flatten.2
        refine ⟨rc.2.map Prod.fst, by simp, ?_⟩
        have hpos := h.cells_pos rc (hc ▸ List.mem_cons_self rc rest)
        have hlen : 1 ≤ rc.2.length := by
          have := h.cells_ne rc (hc ▸ List.mem_cons_self rc rest)
          cases hx : rc.2 with
          | nil => exact absurd hx this
          | cons y ys => simp [hx]
        rw [hpos]
        exact (mem_range1_iff 1 rc.2.length).2 ⟨Nat.le_refl 1, hlen⟩
      rw [← hc] at hmem ⊢
      rw [hc] at hmem ⊢
      exact le_foldr_max _ 1 hmem

theorem TInv_num_cols_ne {t : Table} (h : TInv t) (hne : t.cells ≠ []) :
    num_cols_val t ≠ 0 := by
  have h1 := TInv_obs_pos h hne
  have h2 : (observed_cols t : Int) ≤ num_cols_val t := le_max_right _ _
  intro hz
  rw [hz] at h2
  omega

theorem rowStep_fold_hdr (t : Table) (w : Nat) : ∀ (keys : List Nat)
    (rows0 : List (List String)) (n : Nat),
    ((keys.foldl (rowStep t w) (rows0, n, true)).2.1 =
      n + (keys.takeWhile (fun r => is_header_row t r)).length) ∧
    ((keys.foldl (rowStep t w) (rows0, n, false)).2.1 = n)
  | [], rows0, n => by simp
  | k :: keys, rows0, n => by
      constructor
      · by_cases hk : is_header_row t k
        · have hred : rowStep t w (rows0, n, true) k =
              (rows0 ++ [row_values_of t w k], n + 1, true) := by
            simp [rowStep, hk]
          rw [List.foldl_cons, hred,
            (rowStep_fold_hdr t w keys (rows0 ++ [row_values_of t w k]) (n + 1)).1,
            List.takeWhile_cons, if_pos hk]
          simp [Nat.add_assoc, Nat.add_comm 1]
        · have hred : rowStep t w (rows0, n, true) k =
              (rows0 ++ [row_values_of t w k], n, false) := by
            simp [rowStep, hk]
          rw [List.foldl_cons, hred,
            (rowStep_fold_hdr t w keys (rows0 ++ [row_values_of t w k]) n).2,
            List.takeWhile_cons, if_neg hk]
          simp
      · have hred : rowStep t w (rows0, n, false) k =
            (rows0 ++ [row_values_of t w k], n, false) := by
          simp [rowStep]
        rw [List.foldl_cons, hred]
        exact (rowStep_fold_hdr t w keys (rows0 ++ [row_values_of t w k]) n).2

theorem rowStep_fold_rows (t : Table) (w : Nat) : ∀ (keys : List Nat)
    (rows0 : List (List String)) (n : Nat) (ph : Bool),
    (keys.foldl (rowStep t w) (rows0, n, ph)).1 =
      rows0 ++ keys.map (row_values_of t w)
  | [], rows0, n, ph => by simp
  | k :: keys, rows0, n, ph => by
      cases ph with
      | false =>
          have hred : rowStep t w (rows0, n, false) k =
              (rows0 ++ [row_values_of t w k], n, false) := by
            simp [rowStep]
          rw [List.foldl_cons, hred,
            rowStep_fold_rows t w keys (rows0 ++ [row_values_of t w k]) n false]
          simp
      | true =>
          by_cases hk : is_header_row t k
          · have hred : rowStep t w (rows0, n, true) k =
                (rows0 ++ [row_values_of t w k], n + 1, true) := by
              simp [rowStep, hk]
            rw [List.foldl_cons, hred,
              rowStep_fold_rows t w keys (rows0 ++ [row_values_of t w k]) (n + 1) true]
            simp
          · have hred : rowStep t w (rows0, n, true) k =
                (rows0 ++ [row_values_of t w k], n, false) := by
              simp [rowStep, hk]
            rw [List.foldl_cons, hred,
              rowStep_fold_rows t w keys (rows0 ++ [row_values_of t w k]) n false]
            simp

/-! ## Claim theorems: C3, C4 -/

/-- C3: column position assignment is row-local and first-seen ordered:
in every table produced by `extract_tables`, each row's `column_order`
assigns positions `1, 2, 3, ...` in first-seen order (the value list
of the order map is exactly `range' 1 n`); a repeated
`(cell_type, raw_index)` pair resolves to its previously assigned
position leaving the order map unchanged; and one accepted element
never removes or replaces fragments previously stored in any cell. -/
theorem c3_column_positions :
    (∀ (es : List Element) (ts : List Table), extract_tables es = .ok ts →
      ∀ t ∈ ts, ∀ rc ∈ t.column_order, rc.2.map Prod.snd = List.range' 1 rc.2.length) ∧
    (∀ (t : Table) (r ci : Nat) (ct frag : String) (p : Nat),
      colPosOf t r (ct, ci) = some p →
      colPosOf (recordCell t r ct ci frag) r (ct, ci) = some p ∧
      (recordCell t r ct ci frag).column_order = t.column_order) ∧
    (∀ (st st2 : ExtState) (e : Element), processElement st e = .ok st2 →
      ∀ (root : String) (r p : Nat), ∃ l2,
        stateCellFrags st2 root r p = stateCellFrags st root r p ++ l2) := by
  refine ⟨?_, ?_, ?_⟩
  · intro es ts h t ht
    exact (extract_tables_TInv h t ht).co_seq
  · intro t r ci ct frag p hp
    refine ⟨?_, recordCell_colOrder_stable frag hp⟩
    rw [recordCell_colPos, recordPos_of_colPos hp]
  · intro st st2 e h root r p
    exact processElement_frags_extend h root r p

/-- Witness for C3: the stream `c3Elems` (with the raw segment `TD[1]`
repeated in row 1) yields a table whose row-1 order map is sequential;
a further repeat of the pair resolves to position 1; recording one
cell from the empty state appends to the empty fragment list. -/
theorem c3_column_positions_witness :
    (∀ rc ∈ c3Table.column_order, rc.2.map Prod.snd = List.range' 1 rc.2.length) ∧
    colPosOf (recordCell c3Table 1 "TD" 1 "z") 1 ("TD", 1) = some 1 ∧
    ∃ l2, stateCellFrags (processElementOk initState
        ⟨some "//Table/TR[1]/TD[1]", some "X", none, none⟩ "//Table/TR[1]/TD[1]")
        "//Table" 1 1 =
      stateCellFrags initState "//Table" 1 1 ++ l2 := by
  refine ⟨?_, ?_, ?_⟩
  · exact c3_column_positions.1 c3Elems [c3Table] (by rfl) c3Table
      (List.mem_singleton.2 rfl)
  · exact (c3_column_positions.2.1 c3Table 1 1 "TD" "z" 1 (by rfl)).1
  · exact c3_column_positions.2.2 initState _
      ⟨some "//Table/TR[1]/TD[1]", some "X", none, none⟩ (by rfl) "//Table" 1 1

/-- C4: for every table produced by `extract_tables`, the header-row
count returned by `assemble_rows` equals the length of the maximal
contiguous prefix of rows, in ascending row-index order, classified
header-only (`has_th` and not `has_td`); counting stops permanently at
the first failing row, as expressed by `List.takeWhile`. -/
theorem c4_header_run (es : List Element) (ts : List Table)
    (h : extract_tables es = .ok ts) (t : Table) (ht : t ∈ ts) :
    ((assemble_rows t).1).2 =
      ((sorted_row_keys t).takeWhile (fun r => is_header_row t r)).length := by
  have hTI := extract_tables_TInv h t ht
  by_cases hnc : num_cols_val t = 0
  · have hcells : t.cells = [] := by
      by_contra hne
      exact TInv_num_cols_ne hTI hne hnc
    rw [sorted_row_keys, hcells]
    simp [assemble_rows, hnc]
  · simp only [assemble_rows, if_neg hnc]
    split
    · rw [(rowStep_fold_hdr t (num_cols_val t).toNat (sorted_row_keys t) [] 0).1]
      simp
    · rw [(rowStep_fold_hdr t (num_cols_val t).toNat (sorted_row_keys t) [] 0).1]
      simp

/-- Witness for C4 at the concrete stream `c4Elems`: the table has two
leading header-only rows, a data row, then a header-only row again;
both sides of the equation evaluate to 2. -/
theorem c4_header_run_witness :
    ((assemble_rows c4Table).1).2 = 2 ∧
    ((sorted_row_keys c4Table).takeWhile (fun r => is_header_row c4Table r)).length = 2 := by
  constructor
  · rw [c4_header_run c4Elems [c4Table] (by rfl) c4Table (List.mem_singleton.2 rfl)]
    rfl
  · rfl

/-! ## Cell values under the invariant -/

theorem mkToList (s : String) : String.mk s.toList = s := rfl

theorem toList_ne_nil {s : String} (h : s ≠ "") : s.toList ≠ [] := by
  intro hl
  apply h
  have h2 := congrArg String.mk hl
  rwa [mkToList] at h2

theorem ne_empty_of_toList {s : String} (h : s.toList ≠ []) : s ≠ "" := by
  intro he
  rw [he] at h
  exact h rfl

theorem joinSpace_cons_toList (f g : String) (fs : List String) :
    (joinSpace (f :: g :: fs)).toList = f.toList ++ ' ' :: (joinSpace (g :: fs)).toList := by
  show (f ++ " " ++ joinSpace (g :: fs)).toList = _
  show (f ++ " " ++ joinSpace (g :: fs)).data = _
  rw [String.data_append, String.data_append, List.append_assoc]
  rfl

theorem joinSpace_stripped : ∀ (fs : List String), fs ≠ [] →
    (∀ f ∈ fs, f ≠ "" ∧ pyStrip f.toList = f.toList) →
    pyStrip (joinSpace fs).toList = (joinSpace fs).toList ∧ (joinSpace fs).toList ≠ []
  | [], h, _ => absurd rfl h
  | [f], _, h => ⟨(h f (by simp)).2, toList_ne_nil (h f (by simp)).1⟩
  | f :: g :: fs, _, h => by
      have hf := h f (List.mem_cons_self _ _)
      have htail := joinSpace_stripped (g :: fs) (by simp)
        (fun x hx => h x (List.mem_cons_of_mem _ hx))
      have hfl : f.toList ≠ [] := toList_ne_nil hf.1
      have hJne : (joinSpace (g :: fs)).toList ≠ [] := htail.2
      constructor
      · apply pyStrip_eq_self
        · intro c hc
          rw [joinSpace_cons_toList] at hc
          cases hft : f.toList with
          | nil => exact absurd hft hfl
          | cons a l =>
              rw [hft] at hc
              simp only [List.cons_append, List.head?_cons, Option.some.injEq] at hc
              subst hc
              apply pyStrip_head_not_ws (l := f.toList)
              rw [hf.2, hft]
              rfl
        · intro c hc
          rw [joinSpace_cons_toList, List.getLast?_append] at hc
          cases hJt : (joinSpace (g :: fs)).toList with
          | nil => exact absurd hJt hJne
          | cons b J' =>
              rw [hJt] at hc
              rw [List.getLast?_cons_cons] at hc
              have hlast : (b :: J').getLast? = some c := by
                cases hgl : (b :: J').getLast? with
                | none => exact absurd (List.getLast?_eq_none_iff.1 hgl) (by simp)
                | some y =>
                    rw [hgl] at hc
                    simpa using hc
              apply pyStrip_getLast_not_ws (l := (joinSpace (g :: fs)).toList)
              rw [htail.1, hJt]
              exact hlast
      · rw [joinSpace_cons_toList]
        simp

theorem TInv_row_fst {t : Table} (h : TInv t) (r : Nat) :
    ((lookupA t.cells r).getD []).map Prod.fst =
      List.range' 1 ((lookupA t.cells r).getD []).length := by
  cases hc : lookupA t.cells r with
  | none => simp
  | some v => simpa using h.cells_pos (r, v) (lookupA_mem hc)

theorem TInv_row_frags {t : Table} (h : TInv t) (r : Nat) :
    ∀ pc ∈ (lookupA t.cells r).getD [],
      pc.2 ≠ [] ∧ ∀ f ∈ pc.2, f ≠ "" ∧ pyStrip f.toList = f.toList := by
  cases hc : lookupA t.cells r with
  | none => simp
  | some v =>
      intro pc hpc
      exact h.frags_ok (r, v) (lookupA_mem hc) pc (by simpa using hpc)

theorem cellValue_spec {t : Table} (h : TInv t) (r c : Nat) :
    (c ∈ List.range' 1 ((lookupA t.cells r).getD []).length → cellValue t r c ≠ "") ∧
    (c ∉ List.range' 1 ((lookupA t.cells r).getD []).length → cellValue t r c = "") := by
  constructor
  · intro hc
    rw [← TInv_row_fst h r] at hc
    obtain ⟨fr, hfr⟩ := lookupA_some_of_mem_fst hc
    have hfrprops := TInv_row_frags h r (c, fr) (lookupA_mem hfr)
    have hjoin := joinSpace_stripped fr hfrprops.1 hfrprops.2
    unfold cellValue
    rw [hfr]
    simp only [Option.getD_some]
    unfold pyStripS
    rw [hjoin.1, mkToList]
    exact ne_empty_of_toList hjoin.2
  · intro hc
    rw [← TInv_row_fst h r] at hc
    have hnone : lookupA ((lookupA t.cells r).getD []) c = none :=
      lookupA_eq_none_iff.2 hc
    unfold cellValue
    rw [hnone]
    rfl

/-! ## Observed column count under the invariant -/

theorem foldr_max_range1 : ∀ (k : Nat), (List.range' 1 k).foldr max 0 = k
  | 0 => rfl
  | k + 1 => by
      rw [List.range'_1_concat, foldr_max_append, foldr_max_range1 k]
      simp
      omega

theorem flatten_foldr_max : ∀ (cs : List (Nat × List (Nat × List String))),
    (∀ rc ∈ cs, rc.2.map Prod.fst = List.range' 1 rc.2.length) →
    ((cs.map (fun rc => rc.2.map Prod.fst)).flatten).foldr max 0 =
      (cs.map (fun rc => rc.2.length)).foldr max 0
  | [], _ => rfl
  | rc :: rest, h => by
      simp only [List.map_cons, List.flatten_cons, List.foldr_cons]
      rw [foldr_max_append, h rc (List.mem_cons_self _ _), foldr_max_range1,
        flatten_foldr_max rest (fun x hx => h x (List.mem_cons_of_mem _ hx))]

theorem observed_eq_len_max {t : Table} (h : TInv t) :
    observed_cols t = (t.cells.map (fun rc => rc.2.length)).foldr max 0 := by
  rw [observed_cols_eq]
  exact flatten_foldr_max t.cells h.cells_pos

theorem foldr_max_mem : ∀ (L : List Nat), L ≠ [] →
    L.foldr max 0 ∈ L ∨ L.foldr max 0 = 0
  | [], h => absurd rfl h
  | [b], _ => by simp
  | b :: x :: xs, _ => by
      rcases Nat.le_total ((x :: xs).foldr max 0) b with hle | hle
      · left
        rw [List.foldr_cons, Nat.max_eq_left hle]
        exact List.mem_cons_self _ _
      · rw [List.foldr_cons, Nat.max_eq_right hle]
        rcases foldr_max_mem (x :: xs) (by simp) with hm | hm
        · exact Or.inl (List.mem_cons_of_mem _ hm)
        · exact Or.inr hm

theorem kr_le_obs {t : Table} (h : TInv t) (r : Nat) :
    ((lookupA t.cells r).getD []).length ≤ observed_cols t := by
  rw [observed_eq_len_max h]
  cases hc : lookupA t.cells r with
  | none => simp
  | some v =>
      simp only [Option.getD_some]
      exact le_foldr_max _ _ (List.mem_map.2 ⟨(r, v), lookupA_mem hc, rfl⟩)

theorem exists_max_row {t : Table} (h : TInv t) (hne : t.cells ≠ []) :
    ∃ r, r ∈ t.cells.map Prod.fst ∧
      ((lookupA t.cells r).getD []).length = observed_cols t := by
  have hobs1 := TInv_obs_pos h hne
  have hmm := foldr_max_mem (t.cells.map (fun rc => rc.2.length))
    (by intro hnil; exact hne (by simpa using hnil))
  rcases hmm with hm | hm
  · rcases List.mem_map.1 hm with ⟨rc, hrc, hlen⟩
    refine ⟨rc.1, List.mem_map.2 ⟨rc, hrc, rfl⟩, ?_⟩
    have hlook : lookupA t.cells rc.1 = some rc.2 :=
      lookupA_of_mem_nodup h.cells_nodup (by simpa using hrc)
    rw [hlook, observed_eq_len_max h]
    simpa using hlen
  · rw [observed_eq_len_max h, hm] at hobs1 ⊢
    omega

theorem obs_le_w (t : Table) : observed_cols t ≤ (num_cols_val t).toNat := by
  have h2 : (observed_cols t : Int) ≤ num_cols_val t := le_max_right _ _
  have h3 := Int.toNat_le_toNat h2
  rwa [Int.toNat_ofNat] at h3

/-! ## The trailing-column trim -/

theorem foldl_lastHit (p : Nat → Bool) : ∀ (w m : Nat), 1 ≤ m → m ≤ w →
    (∀ j, j < w → (p j = true ↔ j < m)) →
    (List.range w).foldl (fun acc j => if p j then some j else acc) none = some (m - 1)
  | 0, m, h1, h2, _ => by omega
  | w + 1, m, h1, h2, hc => by
      rw [List.range_succ, List.foldl_append]
      simp only [List.foldl_cons, List.foldl_nil]
      by_cases hm : m = w + 1
      · have hp : p w = true := (hc w (by omega)).2 (by omega)
        rw [if_pos hp, hm]
        simp
      · have hmw : m ≤ w := by omega
        have hp : p w = false := by
          have h4 := hc w (by omega)
          rw [← Bool.not_eq_true]
          intro hcon
          have := h4.1 hcon
          omega
        rw [hp]
        simp only [Bool.false_eq_true, if_false]
        exact foldl_lastHit p w m h1 hmw (fun j hj => hc j (by omega))

theorem lastNonEmpty_nil (w : Nat) : lastNonEmpty [] w = none := by
  unfold lastNonEmpty
  have hgen : ∀ (L : List Nat) (acc : Option Nat),
      L.foldl (fun acc j =>
        if ([] : List (List String)).any (fun row => row.getD j "" != "") then some j
        else acc) acc = acc := by
    intro L
    induction L with
    | nil => intro acc; rfl
    | cons x xs ih =>
        intro acc
        simp only [List.foldl_cons, List.any_nil]
        exact ih acc
  exact hgen _ none

theorem row_values_length (t : Table) (w r : Nat) : (row_values_of t w r).length = w := by
  simp [row_values_of]

theorem row_values_getD (t : Table) (w r j : Nat) (hj : j < w) :
    (row_values_of t w r).getD j "" = cellValue t r (1 + j) := by
  unfold row_values_of
  rw [List.getD_eq_getElem?_getD, List.getElem?_eq_getElem (by simpa using hj)]
  simp

theorem any_rows_iff {t : Table} (h : TInv t) (hne : t.cells ≠ []) (w : Nat)
    (_hw : observed_cols t ≤ w) :
    ∀ j, j < w →
      ((((sorted_row_keys t).map (row_values_of t w)).any
        (fun row => row.getD j "" != "")) = true ↔ j < observed_cols t) := by
  intro j hj
  rw [List.any_eq_true]
  constructor
  · rintro ⟨row, hrow, hne2⟩
    rcases List.mem_map.1 hrow with ⟨r, hr, rfl⟩
    rw [row_values_getD t w r j hj] at hne2
    have hne3 : cellValue t r (1 + j) ≠ "" := by simpa using hne2
    by_contra hcon
    push_neg at hcon
    apply hne3
    apply (cellValue_spec h r (1 + j)).2
    rw [mem_range1_iff]
    push_neg
    intro _
    have hkr := kr_le_obs h r
    omega
  · intro hj2
    obtain ⟨rmax, hrmem, hrk⟩ := exists_max_row h hne
    refine ⟨row_values_of t w rmax, List.mem_map.2 ⟨rmax, ?_, rfl⟩, ?_⟩
    · unfold sorted_row_keys
      exact (List.mem_insertionSort _).2 hrmem
    · rw [row_values_getD t w rmax j hj]
      have hv : cellValue t rmax (1 + j) ≠ "" := by
        apply (cellValue_spec h rmax (1 + j)).1
        rw [mem_range1_iff, hrk]
        omega
      simpa using hv

/-! ## Claim theorem: C6 -/

/-- C6: for every table produced by `extract_tables`, the trimmed row
matrix returned by `assemble_rows` has rows of identical length, and
every column index of the result is non-empty in at least one row
(when there are no rows at all — the fully empty table — both parts
hold vacuously, every row being the empty vector). -/
theorem c6_trimmed_rows (es : List Element) (ts : List Table)
    (h : extract_tables es = .ok ts) (t : Table) (ht : t ∈ ts) :
    (∀ r1 ∈ ((assemble_rows t).1).1, ∀ r2 ∈ ((assemble_rows t).1).1,
      r1.length = r2.length) ∧
    (∀ row ∈ ((assemble_rows t).1).1, ∀ j, j < row.length →
      ∃ row2 ∈ ((assemble_rows t).1).1, j < row2.length ∧ row2.getD j "" ≠ "") := by
  have hTI := extract_tables_TInv h t ht
  by_cases hcells : t.cells = []
  · have hrows : ((assemble_rows t).1).1 = [] := by
      by_cases hnc : num_cols_val t = 0
      · simp [assemble_rows, hnc]
      · have hkeys : sorted_row_keys t = [] := by
          unfold sorted_row_keys
          rw [hcells]
          rfl
        simp only [assemble_rows, if_neg hnc, hkeys, List.foldl_nil]
        rw [lastNonEmpty_nil]
        rfl
    rw [hrows]
    constructor
    · intro r1 h1
      simp at h1
    · intro row hrow
      simp at hrow
  · have hnc : num_cols_val t ≠ 0 := TInv_num_cols_ne hTI hcells
    have hobs1 : 1 ≤ observed_cols t := TInv_obs_pos hTI hcells
    have hobsw : observed_cols t ≤ (num_cols_val t).toNat := obs_le_w t
    have hordered : ((sorted_row_keys t).foldl (rowStep t (num_cols_val t).toNat)
        ([], 0, true)).1 =
        (sorted_row_keys t).map (row_values_of t (num_cols_val t).toNat) := by
      rw [rowStep_fold_rows]
      simp
    have hlast : lastNonEmpty
        ((sorted_row_keys t).map (row_values_of t (num_cols_val t).toNat))
        (num_cols_val t).toNat = some (observed_cols t - 1) := by
      unfold lastNonEmpty
      exact foldl_lastHit _ _ _ hobs1 hobsw (any_rows_iff hTI hcells _ hobsw)
    have hres : ((assemble_rows t).1).1 =
        ((sorted_row_keys t).map (row_values_of t (num_cols_val t).toNat)).map
          (fun row => row.take (observed_cols t - 1 + 1)) := by
      simp only [assemble_rows, if_neg hnc]
      rw [hordered, hlast]
    have hobstake : observed_cols t - 1 + 1 = observed_cols t := by omega
    rw [hres, hobstake]
    have hlen : ∀ row0 ∈ (sorted_row_keys t).map (row_values_of t (num_cols_val t).toNat),
        (row0.take (observed_cols t)).length = observed_cols t := by
      intro row0 hrow0
      rcases List.mem_map.1 hrow0 with ⟨r, _, rfl⟩
      rw [List.length_take, row_values_length]
      exact Nat.min_eq_left hobsw
    constructor
    · intro r1 h1 r2 h2
      rcases List.mem_map.1 h1 with ⟨row1, hrow1, rfl⟩
      rcases List.mem_map.1 h2 with ⟨row2, hrow2, rfl⟩
      rw [hlen row1 hrow1, hlen row2 hrow2]
    · intro row hrow j hj
      rcases List.mem_map.1 hrow with ⟨row0, hrow0, rfl⟩
      rw [hlen row0 hrow0] at hj
      obtain ⟨rmax, hrmem, hrk⟩ := exists_max_row hTI hcells
      have hrmaxmem : row_values_of t (num_cols_val t).toNat rmax ∈
          (sorted_row_keys t).map (row_values_of t (num_cols_val t).toNat) := by
        refine List.mem_map.2 ⟨rmax, ?_, rfl⟩
        unfold sorted_row_keys
        exact (List.mem_insertionSort _).2 hrmem
      refine ⟨(row_values_of t (num_cols_val t).toNat rmax).take (observed_cols t),
        List.mem_map.2 ⟨row_values_of t (num_cols_val t).toNat rmax, hrmaxmem, rfl⟩,
        ?_, ?_⟩
      · rw [hlen _ hrmaxmem]
        exact hj
      · rw [List.getD_eq_getElem?_getD, List.getElem?_take_of_lt hj,
          ← List.getD_eq_getElem?_getD]
        rw [row_values_getD t _ rmax j (by omega)]
        apply (cellValue_spec hTI rmax (1 + j)).1
        rw [mem_range1_iff, hrk]
        omega

/-- Witness for C6 at the concrete stream `c6Elems`: the trimmed rows
are `[["x", ""], ["y", "z"]]`; both rows have length 2, and column
index 1 (empty in row 1) is non-empty in row 2. -/
theorem c6_trimmed_rows_witness :
    (∃ row2 ∈ ((assemble_rows c6Table).1).1, 1 < row2.length ∧ row2.getD 1 "" ≠ "") ∧
    ((assemble_rows c6Table).1).1.map List.length = [2, 2] := by
  constructor
  · exact (c6_trimmed_rows c6Elems [c6Table] (by rfl) c6Table
      (List.mem_singleton.2 rfl)).2 ["x", ""] (by decide) 1 (by decide)
  · rfl

end PdfExtract
